import Mathlib

/-!
Verification of the RPiNWR SAME-message core (`RPiNWR/messages/SAME.py` and
`RPiNWR/messages/cache.py`) against its natural-language specification.

The Python code is embedded shallowly:

* Python strings are lists of character code points (`Str := List Nat`);
  `ord`/`chr` are then the identity.
* Python floats are modelled as exact rationals (`PyQ`, an unnormalized
  fraction kept with a positive denominator so that every operation is
  structurally computable).
* Fallible Python operations (list indexing, `int()`, division, `min` of an
  empty list, ...) return `Except PyErr`; each `PyErr` constructor names the
  Python exception class raised at that point.
* Mutation of local lists is modelled by explicit state passing.
-/

set_option maxRecDepth 100000

namespace RPiNWR

/-- Python string, as the list of its character code points. -/
abbrev Str := List Nat

/-- Build a `Str` from a Lean string literal. -/
def str (s : String) : Str := s.toList.map Char.toNat

/-- The Python exceptions that the embedded code can raise. -/
inductive PyErr where
  | indexError
  | typeError
  | valueError
  | keyError
  | zeroDivisionError
  | assertionError
  | attributeError
deriving DecidableEq

/-! ## Exact rationals standing in for Python floats

Python `float` arithmetic appears in weights (`0.5`, `1.1`, ...), in
`(distance + 1) / weight`, and in time stamps.  We model it with exact
rationals; `PyQ` keeps an unnormalized numerator/denominator pair so the
kernel can evaluate every operation (Lean `Rat` normalization is opaque to
the kernel). -/

structure PyQ where
  num : Int
  den : Int
  den_pos : 0 < den

namespace PyQ

theorem ext_iff {a b : PyQ} : a = b ↔ a.num = b.num ∧ a.den = b.den := by
  cases a; cases b; simp

instance : DecidableEq PyQ := fun a b =>
  decidable_of_iff (a.num = b.num ∧ a.den = b.den) ext_iff.symm

def ofInt (n : Int) : PyQ := ⟨n, 1, one_pos⟩

instance (n : Nat) : OfNat PyQ n := ⟨ofInt n⟩

def add (a b : PyQ) : PyQ :=
  ⟨a.num * b.den + b.num * a.den, a.den * b.den, mul_pos a.den_pos b.den_pos⟩

def sub (a b : PyQ) : PyQ :=
  ⟨a.num * b.den - b.num * a.den, a.den * b.den, mul_pos a.den_pos b.den_pos⟩

def mul (a b : PyQ) : PyQ :=
  ⟨a.num * b.num, a.den * b.den, mul_pos a.den_pos b.den_pos⟩

/-- Exact division.  Division by zero gives an (unused) junk value; every
call site models Python by raising `zeroDivisionError` first. -/
def div (a b : PyQ) : PyQ :=
  if h : 0 < b.num then ⟨a.num * b.den, b.num * a.den, mul_pos h a.den_pos⟩
  else if h2 : b.num < 0 then
    ⟨-(a.num * b.den), -b.num * a.den, mul_pos (by omega) a.den_pos⟩
  else ofInt 0

instance : Add PyQ := ⟨add⟩
instance : Sub PyQ := ⟨sub⟩
instance : Mul PyQ := ⟨mul⟩
instance : Div PyQ := ⟨div⟩

def lt (a b : PyQ) : Prop := a.num * b.den < b.num * a.den

def le (a b : PyQ) : Prop := a.num * b.den ≤ b.num * a.den

instance : LT PyQ := ⟨lt⟩
instance : LE PyQ := ⟨le⟩

instance (a b : PyQ) : Decidable (a < b) := by
  unfold_projs; unfold lt; infer_instance

instance (a b : PyQ) : Decidable (a ≤ b) := by
  unfold_projs; unfold le; infer_instance

def pymax (a b : PyQ) : PyQ := if a < b then b else a

def pymin (a b : PyQ) : PyQ := if b < a then b else a

/-- Python `int(x)`: truncation toward zero. -/
def trunc (a : PyQ) : Int := a.num.tdiv a.den

theorem lt_def {a b : PyQ} : a < b ↔ a.num * b.den < b.num * a.den := Iff.rfl

theorem le_def {a b : PyQ} : a ≤ b ↔ a.num * b.den ≤ b.num * a.den := Iff.rfl

theorem le_refl (a : PyQ) : a ≤ a := le_def.mpr (Int.le_refl _)

theorem le_of_not_lt {a b : PyQ} (h : ¬ a < b) : b ≤ a :=
  le_def.mpr (Int.not_lt.mp (fun hc => h (lt_def.mpr hc)))

theorem not_lt_of_le {a b : PyQ} (h : a ≤ b) : ¬ b < a :=
  fun hc => absurd (le_def.mp h) (Int.not_le.mpr (lt_def.mp hc))

theorem lt_of_lt_of_le {a b c : PyQ} (h1 : a < b) (h2 : b ≤ c) : a < c := by
  rw [lt_def] at h1 ⊢
  rw [le_def] at h2
  have hbd := b.den_pos
  have had := a.den_pos
  have hcd := c.den_pos
  nlinarith [mul_lt_mul_of_pos_right h1 hcd, mul_le_mul_of_nonneg_right h2 (le_of_lt had)]

theorem le_trans {a b c : PyQ} (h1 : a ≤ b) (h2 : b ≤ c) : a ≤ c := by
  rw [le_def] at h1 h2 ⊢
  have hbd := b.den_pos
  have had := a.den_pos
  have hcd := c.den_pos
  nlinarith [mul_le_mul_of_nonneg_right h1 (le_of_lt hcd),
             mul_le_mul_of_nonneg_right h2 (le_of_lt had)]

end PyQ

instance {ε α : Type} [DecidableEq ε] [DecidableEq α] : DecidableEq (Except ε α)
  | .error e, .error f => decidable_of_iff (e = f) (by simp)
  | .error _, .ok _ => isFalse (by simp)
  | .ok _, .error _ => isFalse (by simp)
  | .ok a, .ok b => decidable_of_iff (a = b) (by simp)

/-! ## Python container primitives -/

/-- Python `l[i]` for a non-negative index: `IndexError` when out of range. -/
def pyGet {α : Type} (l : List α) (i : Nat) : Except PyErr α :=
  match l.get? i with
  | some x => .ok x
  | none => .error .indexError

/-- Python `l[i]` with general (possibly negative) index semantics. -/
def pyGetI {α : Type} (l : List α) (i : Int) : Except PyErr α :=
  if 0 ≤ i then pyGet l i.toNat
  else
    let j : Int := (l.length : Int) + i
    if j < 0 then .error .indexError else pyGet l j.toNat

/-- Python `l[i] = v`: `IndexError` when out of range. -/
def pySet {α : Type} (l : List α) (i : Nat) (v : α) : Except PyErr (List α) :=
  if i < l.length then .ok (l.set i v) else .error .indexError

/-- Normalize one slice bound the way Python does. -/
def pyNormIdx (n : Nat) (i : Int) : Nat :=
  if i < 0 then ((n : Int) + i).toNat else min i.toNat n

/-- Python `l[a:b]` (step 1). -/
def pySlice {α : Type} (l : List α) (a b : Int) : List α :=
  let s := pyNormIdx l.length a
  let e := pyNormIdx l.length b
  (l.drop s).take (e - s)

/-- Python `l[a:]`. -/
def pySliceFrom {α : Type} (l : List α) (a : Int) : List α :=
  l.drop (pyNormIdx l.length a)

/-- Python slice assignment `l[a:b] = rhs`. -/
def pySliceAssign {α : Type} (l : List α) (a b : Int) (rhs : List α) : List α :=
  let s := pyNormIdx l.length a
  let e := pyNormIdx l.length b
  l.take s ++ rhs ++ l.drop (max s e)

/-- Python `range(a, b, step)` for a positive step, as a list of `Int`. -/
def pyRange (a b : Int) (step : Nat) : List Int :=
  if a < b then
    (List.range ((b - a - 1).toNat / step + 1)).map
      (fun (k : Nat) => a + (k : Int) * (step : Int))
  else []

/-- Python `str.find(c)` for a single-character needle: index or `-1`. -/
def pyFind (s : Str) (c : Nat) : Int :=
  match s.findIdx? (fun x => x = c) with
  | some i => (i : Int)
  | none => -1

/-- Python `s.split(c)` on a single-character separator (`"".split(c) = [""]`,
empty parts preserved). -/
def pySplit (s : Str) (c : Nat) : List Str :=
  s.foldr (fun x acc =>
    match acc with
    | [] => [[x]]
    | p :: ps => if x = c then [] :: p :: ps else (x :: p) :: ps) [[]]

/-- Python `int(s)` restricted to non-empty all-digit strings (the only shape
this code base feeds it); anything else raises `ValueError`. -/
def pyIntStr (s : Str) : Except PyErr Int :=
  if s ≠ [] ∧ s.all (fun c => 48 ≤ c ∧ c ≤ 57) then
    .ok (s.foldl (fun acc c => acc * 10 + ((c : Int) - 48)) 0)
  else .error .valueError

/-- Python `x >> n` on integers (floor division by `2^n`). -/
def pyShr (x : Int) (n : Nat) : Int := Int.ediv x (2 ^ n)

/-- Stable insertion used to model Python `list.sort()` / `sorted` for a
strict order `lt`: a new element goes after all existing elements it is not
strictly below. -/
def pyInsert {α : Type} (lt : α → α → Bool) (x : α) : List α → List α
  | [] => [x]
  | y :: ys => if lt x y then x :: y :: ys else y :: pyInsert lt x ys

/-- Python `sorted(l)` / `l.sort()` for the strict order `lt` (stable). -/
def pySorted {α : Type} (lt : α → α → Bool) (l : List α) : List α :=
  l.foldl (fun acc x => pyInsert lt x acc) []

/-- Lexicographic strict order on code-point strings (Python `<` on `str`). -/
def strLt : Str → Str → Bool
  | [], [] => false
  | [], _ :: _ => true
  | _ :: _, [] => false
  | a :: as, b :: bs => if a < b then true else if a = b then strLt as bs else false

/-! ## Static reference tables (`SAME.py` lines 33-106) -/

/-- `_ORIGINATOR_CODES`. -/
def ORIGINATOR_CODES : List Str := ["EAS", "CIV", "WXR", "PEP"].map str

/-- `_EVENT_CODES` (the second component of each `_EVENT_TYPES` entry). -/
def EVENT_CODES : List Str :=
  ["BZW", "CFA", "CFW", "DSW", "FFA", "FFW", "FFS", "FLA", "FLW", "FLS",
   "HWA", "HWW", "HUA", "HUW", "HLS", "SVA", "SVR", "SVS", "SMW", "SPS",
   "TOA", "TOR", "TRA", "TRW", "TSA", "TSW", "WSA", "WSW", "EAN", "EAT",
   "NIC", "NPT", "RMT", "RWT", "ADR", "AVA", "AVW", "CAE", "CDW", "CEM",
   "EQW", "EVI", "FRW", "HMW", "LEW", "LAE", "TOE", "NUW", "RHW", "SPW",
   "VOW", "NMN", "DMO", "TXF", "TXO", "TXB", "TXP"].map str

/-- `VALID_DURATIONS`: `(weight, "HHMM")` pairs. -/
def VALID_DURATIONS : List (PyQ × Str) :=
  [((1 : PyQ), str "0015"), ((1 : PyQ), str "0030"),
   (⟨11, 10, by norm_num⟩, str "0045"), (⟨11, 10, by norm_num⟩, str "0100"),
   ((1 : PyQ), str "0130"), (⟨11, 10, by norm_num⟩, str "0200"),
   ((1 : PyQ), str "0230"), (⟨11, 10, by norm_num⟩, str "0300"),
   (⟨9, 10, by norm_num⟩, str "0330"), (⟨11, 10, by norm_num⟩, str "0400"),
   (⟨9, 10, by norm_num⟩, str "0430"), (⟨11, 10, by norm_num⟩, str "0500"),
   (⟨9, 10, by norm_num⟩, str "0530"), (⟨11, 10, by norm_num⟩, str "0600")]

/-- `_DURATION_NUMBERS`. -/
def DURATION_NUMBERS : List Str := VALID_DURATIONS.map (·.2)

/-- `__ALPHA`. -/
def ALPHA : Str := str "ABCDEFGHIJKLMNOPQRSTUVWXYZ"

/-- `__NUMERIC`. -/
def NUMERIC : Str := str "0123456789"

/-- `__PRINTABLE`: `'\x10\x13'` followed by the printable ASCII range 33-126
with `+` (43) and `-` (45) removed. -/
def PRINTABLE : Str :=
  16 :: 19 :: ((List.range 127).drop 33).filter (fun n => n ≠ 43 ∧ n ≠ 45)

/-- An entry of `_SAME_CHARS`: either a character-class string or the integer
repeat sentinel `-7`. -/
inductive SCEntry where
  | cs (s : Str)
  | rep (n : Int)
deriving DecidableEq

/-- `_SAME_CHARS`. -/
def SAME_CHARS : List SCEntry :=
  [.cs (str "-"), .cs (str "ECWP"), .cs (str "AIXE"), .cs (str "SVRP"),
   .cs (str "-"), .cs ALPHA, .cs ALPHA, .cs ALPHA, .cs (str "-"),
   .cs PRINTABLE, .cs PRINTABLE, .cs PRINTABLE, .cs PRINTABLE, .cs PRINTABLE,
   .cs PRINTABLE, .rep (-7),
   .cs (str "+"), .cs NUMERIC, .cs NUMERIC, .cs (str "0134"), .cs (str "05"),
   .cs (str "-"),
   .cs (str "0123"), .cs NUMERIC, .cs NUMERIC, .cs (str "012"), .cs NUMERIC,
   .cs (str "012345"), .cs NUMERIC, .cs (str "-"),
   .cs ALPHA, .cs ALPHA, .cs ALPHA, .cs ALPHA, .cs (str "/"), .cs (str "N"),
   .cs (str "W"), .cs (str "S"), .cs (str "-")]

/-! ## ConfidentCharacter (`SAME.py` lines 112-178)

A byte whose eight bits carry individual confidences.  The 8-element Python
confidence array is a `Fin 8 → Int`; the byte is its code point.  The byte
assembled with the loop `new_byte |= 1 << i` is `byteFromBits`. -/

/-- Little-endian binary value of a list of bits. -/
def bitsToNat : List Bool → Nat
  | [] => 0
  | b :: bs => (if b then 1 else 0) + 2 * bitsToNat bs

/-- The byte whose bit `i` (LSB first, `i < 8`) is `f i`; this is the value
built by the Python loop `for i in range(8): new_byte |= (cond i) << i`. -/
def byteFromBits (f : Nat → Bool) : Nat :=
  bitsToNat [f 0, f 1, f 2, f 3, f 4, f 5, f 6, f 7]

theorem testBit_bitsToNat (bs : List Bool) (i : Nat) :
    (bitsToNat bs).testBit i = bs.getD i false := by
  induction bs generalizing i with
  | nil => simp [bitsToNat]
  | cons b bs ih =>
    cases i with
    | zero =>
      cases b <;> simp [bitsToNat, Nat.testBit_zero, Nat.add_mul_mod_self_left]
    | succ i =>
      have hdiv : ((if b then 1 else 0) + 2 * bitsToNat bs) / 2 = bitsToNat bs := by
        cases b
        · simp
        · simp
          omega
      simp [bitsToNat, Nat.testBit_add_one, hdiv, ih]

theorem testBit_byteFromBits (f : Nat → Bool) (i : Nat) (h : i < 8) :
    (byteFromBits f).testBit i = f i := by
  unfold byteFromBits
  rw [testBit_bitsToNat]
  interval_cases i <;> rfl

/-- `ConfidentCharacter`: the character, the 8-element bitwise confidence,
and the derived whole-byte confidence `sum(bitwise_confidence) >> 3`. -/
structure ConfidentCharacter where
  char : Nat
  bitwise_confidence : Fin 8 → Int
  confidence : Int

namespace ConfidentCharacter

/-- Constructor branch taking a `bitwise_confidence` array (the length-8
check of the Python constructor is carried by the `Fin 8` index type);
`confidence = sum(bitwise_confidence) >> 3`. -/
def ofBitwise (char : Nat) (bw : Fin 8 → Int) : ConfidentCharacter :=
  ⟨char, bw, pyShr (∑ k : Fin 8, bw k) 3⟩

/-- Constructor branch taking a scalar confidence, broadcast to all 8 bits. -/
def ofScalar (char : Nat) (confidence : Int) : ConfidentCharacter :=
  ⟨char, fun _ => confidence, confidence⟩

/-- First component of `get_bit_confidences`. -/
def bitsTrue (a : ConfidentCharacter) (k : Fin 8) : Int :=
  if a.char.testBit k then a.bitwise_confidence k else 0

/-- Second component of `get_bit_confidences`. -/
def bitsFalse (a : ConfidentCharacter) (k : Fin 8) : Int :=
  if a.char.testBit k then 0 else a.bitwise_confidence k

/-- `__add__`: add the true- and false-vectors elementwise; bit `k` of the
result is set iff `how_true > 0` and its confidence is `|how_true|`. -/
def add (a b : ConfidentCharacter) : ConfidentCharacter :=
  let newTrue : Fin 8 → Int := fun k => bitsTrue a k + bitsTrue b k
  let newFalse : Fin 8 → Int := fun k => bitsFalse a k + bitsFalse b k
  let howTrue : Fin 8 → Int := fun k => newTrue k - newFalse k
  ofBitwise
    (byteFromBits (fun i => if h : i < 8 then decide (0 < howTrue ⟨i, h⟩) else false))
    (fun k => if 0 < howTrue k then howTrue k else -howTrue k)

/-- Net signed bit weight: `bits_true - bits_false` for each bit. -/
def net (a : ConfidentCharacter) (k : Fin 8) : Int := bitsTrue a k - bitsFalse a k

/-- The merge result as a function of the net signed weights alone. -/
def ofNet (v : Fin 8 → Int) : ConfidentCharacter :=
  ofBitwise
    (byteFromBits (fun i => if h : i < 8 then decide (0 < v ⟨i, h⟩) else false))
    (fun k => if 0 < v k then v k else -v k)

theorem add_eq_ofNet (a b : ConfidentCharacter) :
    add a b = ofNet (fun k => net a k + net b k) := by
  have hpt : ∀ k : Fin 8, (bitsTrue a k + bitsTrue b k) - (bitsFalse a k + bitsFalse b k)
      = net a k + net b k := by
    intro k; unfold net; ring
  unfold add ofNet
  simp only [hpt]

theorem net_ofNet (v : Fin 8 → Int) : net (ofNet v) = v := by
  funext k
  unfold net ofNet bitsTrue bitsFalse ofBitwise
  simp only
  rw [testBit_byteFromBits _ k.val k.isLt]
  have hk : (⟨k.val, k.isLt⟩ : Fin 8) = k := rfl
  rw [dif_pos k.isLt, hk]
  by_cases h : 0 < v k
  · simp [h]
  · simp [h]

end ConfidentCharacter

/-! ## Word distance and word reconciliation (`SAME.py` lines 226-297) -/

/-- Loop body of `_word_distance`: `i` is the current index, the list is the
remaining suffix of `choice`, `d` the accumulated distance.  The source reads
`confidence[i]` only on a mismatch (possible `IndexError`), and returns early
with `(len(word) - i + 1) * 9` when `word` is exhausted. -/
def wordDistanceAux (word : Str) (confidence : List Int) (wildcard : Option Nat) :
    Nat → List Nat → Int → Except PyErr Int
  | _, [], d => .ok d
  | i, c :: rest, d =>
    if i < word.length then
      if some c ≠ wildcard ∧ word.getD i 0 ≠ c then
        match confidence.get? i with
        | some cf => wordDistanceAux word confidence wildcard (i + 1) rest (d + (1 + cf))
        | none => .error .indexError
      else wordDistanceAux word confidence wildcard (i + 1) rest d
    else .ok (d + ((word.length : Int) - (i : Int) + 1) * 9)

/-- `_word_distance(word, confidence, choice, wildcard)`.  The `try/except
TypeError` around `confidence[i]` only converts digit characters to their
integer values, which the `List Int` representation already carries. -/
def wordDistance (word : Str) (confidence : List Int) (choice : Str)
    (wildcard : Option Nat) : Except PyErr Int :=
  wordDistanceAux word confidence wildcard 0 choice 0

/-- `__median(lst)`: middle element of the sorted list for odd length, mean of
the two middle elements (`float` division by 2) for even length.  For the
empty list the Python slice `sorted[-1:1]` is empty, so the result is `0.0`. -/
def median (lst : List Int) : PyQ :=
  let s := pySorted (fun a b : Int => decide (a < b)) lst
  let q := lst.length / 2
  if lst.length % 2 = 1 then PyQ.ofInt (s.getD q 0)
  else PyQ.div (PyQ.ofInt ((pySlice s ((q : Int) - 1) ((q : Int) + 1)).sum)) 2

/-- A candidate set for `_reconcile_word`: either plain strings (given weight
1 by the `try/except TypeError` normalization) or `(weight, string)` pairs. -/
inductive Choices where
  | plain (l : List Str)
  | weighted (l : List (PyQ × Str))

/-- `len(choices)`. -/
def Choices.size : Choices → Nat
  | .plain l => l.length
  | .weighted l => l.length

/-- The normalization `choices = [(1, x) for x in choices]` applied on
`TypeError`, i.e. exactly when the entries are plain strings. -/
def Choices.norm : Choices → List (PyQ × Str)
  | .plain l => l.map (fun s => ((1 : PyQ), s))
  | .weighted l => l

/-- Strict order on `(float, str)` pairs (Python tuple comparison). -/
def pairLt (a b : PyQ × Str) : Bool :=
  if a.1 < b.1 then true else if a.1 = b.1 then strLt a.2 b.2 else false

/-- Python `max` of a non-empty `int` list; `ValueError` when empty. -/
def pyMaxInt (l : List Int) : Except PyErr Int :=
  match l with
  | [] => .error .valueError
  | x :: xs => .ok (xs.foldl (fun a b => if a < b then b else a) x)

/-- The confidence-rewrite loop of `_reconcile_word` after a match: for `i` in
`range(start, end)` compare `word[i]` (the *candidate*, freshly reassigned)
with `word[i - start]` and write `base` or `min(9, base >> 3)` into
`confidences[i]`.  Reading `word[i]` past the candidate's end raises
`IndexError`. -/
def reconcileConfLoop (cand : Str) (start : Nat) (base : Int) :
    List Nat → List Int → Except PyErr (List Int)
  | [], confs => .ok confs
  | i :: rest, confs => do
    let wi ← pyGet cand i
    let wis ← pyGet cand (i - start)
    if wi ≠ wis then reconcileConfLoop cand start base rest (← pySet confs i base)
    else reconcileConfLoop cand start base rest (← pySet confs i (min 9 (pyShr base 3)))

/-- `_reconcile_word(word, confidences, start, choices)`. -/
def reconcileWord (word : Str) (confidences : List Int) (start : Nat)
    (choices : Choices) : Except PyErr (Str × List Int × Bool) := do
  if choices.size = 0 then return (word, confidences, false)
  if word.length ≤ start then return (word, confidences, false)
  -- `confidences[0] + 1` probes the element type; on an empty list this is
  -- an `IndexError` (only `TypeError` is caught).
  let _ ← pyGet confidences 0
  let choicePairs := choices.norm
  let c0 ← pyGet choicePairs 0
  let endIdx := start + c0.2.length
  let wordSlice := pySlice word (start : Int) (endIdx : Int)
  let confSlice := pySlice confidences (start : Int) (endIdx : Int)
  let candidates ← choicePairs.mapM (fun wc => do
    let d ← wordDistance wordSlice confSlice wc.2 none
    if wc.1.num = 0 then throw PyErr.zeroDivisionError
    pure (PyQ.div (PyQ.ofInt (d + 1)) wc.1, wc.2))
  let sorted := pySorted pairLt candidates
  let best ← pyGet sorted 0
  let thr := PyQ.pymax 4 (median confidences)
  let accept ←
    if best.1 < thr then
      if sorted.length = 1 then pure true
      else do
        let second ← pyGet sorted 1
        pure (decide (best.1 < second.1))
    else pure false
  if accept then
    let cand := best.2
    let maxConf ← pyMaxInt (pySlice confidences (start : Int) (endIdx : Int))
    if endIdx = start then throw PyErr.zeroDivisionError
    let base : Int :=
      max 0 (PyQ.trunc (PyQ.sub (PyQ.ofInt (max 4 maxConf))
        (PyQ.div best.1 (PyQ.ofInt ((endIdx : Int) - (start : Int))))))
    let confs2 ← reconcileConfLoop cand start base
      ((List.range (endIdx - start)).map (· + start)) confidences
    let newWord := pySliceAssign cand (start : Int) (endIdx : Int) cand
    return (newWord, confs2, true)
  else
    return (wordSlice, confidences, false)

/-! ## Truncation and framing (`SAME.py` lines 300-347) -/

/-- `_END_SEQUENCE`. -/
def END_SEQUENCE : Str := str "+0___-_______-____/NWS-"

/-- Python `min` over `(int, int)` tuples; `ValueError` when empty; ties keep
the earliest element (tuples compare lexicographically). -/
def pyMinIntPairs (l : List (Int × Int)) : Except PyErr (Int × Int) :=
  match l with
  | [] => .error .valueError
  | x :: xs => .ok (xs.foldl (fun a b => if b.1 < a.1 ∨ (b.1 = a.1 ∧ b.2 < a.2) then b else a) x)

/-- The frame-writing loop of `_truncate`: for each position `i`, a
non-wildcard frame character is enforced; a replaced byte gets confidence
`end_confidence`, an already-matching byte keeps
`max(end_confidence, confidences[i])`. -/
def truncFrameLoop (frame : Str) (endConf : Int) :
    List Nat → Str → List Int → Except PyErr (Str × List Int)
  | [], msg, conf => .ok (msg, conf)
  | i :: rest, msg, conf => do
    let fi ← pyGet frame i
    if fi ≠ 95 then
      let mi ← pyGet msg i
      if mi ≠ fi then
        truncFrameLoop frame endConf rest (← pySet msg i fi) (← pySet conf i endConf)
      else
        let ci ← pyGet conf i
        truncFrameLoop frame endConf rest msg (← pySet conf i (max endConf ci))
    else truncFrameLoop frame endConf rest msg conf

/-- The candidate lengths `range(38, len(avgmsg) + 1, 7)` of `_truncate`. -/
def truncLens (n : Nat) : List Int := pyRange 38 ((n : Int) + 1) 7

/-- One candidate score of `_truncate`:
`_word_distance(avgmsg[l - 23:l], confidences, _END_SEQUENCE, '_')`. -/
def truncDist (avgmsg : Str) (confidences : List Int) (l : Int) : Except PyErr Int :=
  wordDistance (pySlice avgmsg (l - 23) l) confidences END_SEQUENCE (some 95)

/-- One `(distance, l)` candidate pair of `_truncate`. -/
def truncCand (avgmsg : Str) (confidences : List Int) (l : Int) :
    Except PyErr (Int × Int) :=
  match truncDist avgmsg confidences l with
  | .error e => .error e
  | .ok d => .ok (d, l)

/-- `len(_END_SEQUENCE.replace("_", ""))`. -/
def confidenceChars : Int := ((END_SEQUENCE.filter (fun c => c ≠ 95)).length : Int)

/-- `fips_count = int((len(avgmsg) - len(_END_SEQUENCE) - 8) / 7)` after
truncation to length `L`. -/
def fipsCountOf (L : Nat) : Int :=
  PyQ.trunc (PyQ.div (PyQ.ofInt ((L : Int) - (END_SEQUENCE.length : Int) - 8))
    (PyQ.ofInt 7))

/-- `frame = '-___-___' + '-______' * fips_count + _END_SEQUENCE` for a
truncated length `L`. -/
def truncFrame (L : Nat) : Str :=
  str "-___-___" ++ (List.replicate (fipsCountOf L).toNat (str "-______")).flatten
    ++ END_SEQUENCE

/-- `end_confidence = int((confidence_chars * __median(confidences) -
winner[0]) / confidence_chars)` on the truncated confidences. -/
def truncEndConf (confidences : List Int) (winner : Int × Int) : Int :=
  PyQ.trunc (PyQ.div
    (PyQ.sub (PyQ.mul (PyQ.ofInt confidenceChars)
      (median (pySlice confidences 0 winner.2))) (PyQ.ofInt winner.1))
    (PyQ.ofInt confidenceChars))

/-- The tail of `_truncate` after the winning `(distance, l)` pair is known:
truncate both sequences to `l`, check `assert len(frame) == len(avgmsg)`,
and lay the frame characters in. -/
def truncateFin (avgmsg : Str) (confidences : List Int) (winner : Int × Int) :
    Except PyErr (Str × List Int) :=
  if (truncFrame (pySlice avgmsg 0 winner.2).length).length
      ≠ (pySlice avgmsg 0 winner.2).length then .error .assertionError
  else
    truncFrameLoop (truncFrame (pySlice avgmsg 0 winner.2).length)
      (truncEndConf confidences winner)
      (List.range (pySlice avgmsg 0 winner.2).length)
      (pySlice avgmsg 0 winner.2) (pySlice confidences 0 winner.2)

/-- `_truncate(avgmsg, confidences)`: messages shorter than 38 bytes are
returned unchanged; otherwise score every candidate length, take the
`min` (first on ties), truncate and frame.  The list/`int` conversion of
`confidences` is the identity here since confidences are already carried as
integers. -/
def truncate (avgmsg : Str) (confidences : List Int) :
    Except PyErr (Str × List Int) :=
  if avgmsg.length < 38 then .ok (avgmsg, confidences)
  else
    match (truncLens avgmsg.length).mapM (truncCand avgmsg confidences) with
    | .error e => .error e
    | .ok cands =>
      match pyMinIntPairs cands with
      | .error e => .error e
      | .ok winner => truncateFin avgmsg confidences winner

/-! ## Message splitting (`SAME.py` lines 357-423) -/

/-- The result `[final_message, final_confidences, fips_counter]` of
`split_message`. -/
structure SplitResult where
  parts : List Str
  confs : List (List Int)
  fips : Int
deriving DecidableEq

/-- The confidence-alignment loop of `split_message`: each part consumes one
confidence per character, in order (`confidences[count]`, may raise
`IndexError`).  The `type(part) == list` branch of the source is dead code
here: every element appended to `final_message` is a string. -/
def alignConf (confidences : List Int) : List Str → Nat → Except PyErr (List (List Int))
  | [], _ => .ok []
  | p :: ps, count => do
    let cs ← (List.range p.length).mapM (fun j => pyGet confidences (count + j))
    let rest ← alignConf confidences ps (count + p.length)
    pure (cs :: rest)

/-- `split_message(message, confidences)`. -/
def splitMessage (message : Str) (confidences : List Int) :
    Except PyErr SplitResult := do
  let tm ← truncate message confidences
  let m0 := tm.1
  let c0 := tm.2
  let mainDelimiter ← pyGetI m0 ((m0.length : Int) - 23)
  let splitParts := pySplit m0 mainDelimiter
  if splitParts.length = 2 then
    let firstHalf := pySplit (splitParts.getD 0 []) 45
    let secondHalf := pySplit (splitParts.getD 1 []) 45
    let f1 ← pyGet firstHalf 1
    let f2 ← pyGet firstHalf 2
    let fipsParts := pySliceFrom firstHalf 3
    let s0 ← pyGet secondHalf 0
    let s1 ← pyGet secondHalf 1
    let s2 ← pyGet secondHalf 2
    let parts := [45 :: f1, 45 :: f2] ++ fipsParts.map (fun p => 45 :: p)
      ++ [43 :: s0, 45 :: s1, 45 :: (s2 ++ [45])]
    let fcs ← alignConf c0 parts 0
    return ⟨parts, fcs, (fipsParts.length : Int)⟩
  else
    let fcs ← alignConf c0 [] 0
    return ⟨[], fcs, 0⟩

/-! ## unicodify (`SAME.py` lines 1038-1056) -/

/-- Per-character mapping of `unicodify`: NUL to `⨀` (U+2A00), other control
characters into the Control Pictures block, codes above 126 into the
U+1E00 block, all chosen so that `ord(c) & 0xFF` is preserved. -/
def uniByte (c : Nat) : Nat :=
  if c = 0 then 0x2A00
  else if c ≤ 0x1F then c ||| 0x2400
  else if 126 < c then (c &&& 255) ||| 0x1E00
  else c

/-- `unicodify(str)`. -/
def unicodify (s : Str) : Str := s.map uniByte

/-! ## MessageChunk (`SAME.py` lines 426-641) -/

/-- External collaborators of `average_message`/`MessageChunk`, all outside
this repository: `time.strftime('%j%H%M', time.gmtime(t))` from the Python
standard library, and `get_counties`/`get_wfo` from
`RPiNWR.sources.radio.nwr_data` (static reference data; `none` models the
`KeyError` taken for an unknown transmitter). -/
structure AvgEnv where
  fmtTime : PyQ → Str
  getCounties : Option Str → Option (List Str)
  getWfo : Option Str → Option Str

/-- `MessageChunk.sum_confidence(chars, confidences)`.  Note the source
indexes the per-character confidence list with the *header* index
(`confidence[i]`), and skips null bytes (`ord & 0xFF == 0`). -/
def sumConfidence (chars : List Str) (confidences : List (List Int)) :
    Except PyErr (List Int × List Int) := do
  let c0 ← pyGet confidences 0
  let size := c0.length
  let init : List Int × List Int :=
    (List.replicate (8 * size) 0, List.replicate (8 * size) 0)
  (List.range confidences.length).foldlM (fun acc i => do
    let confidence := confidences.getD i []
    let chi ← pyGet chars i
    (List.range chi.length).foldlM (fun acc2 j => do
      let c := chi.getD j 0
      if c &&& 255 ≠ 0 then
        let cw ← pyGet confidence i
        (List.range 8).foldlM (fun (acc3 : List Int × List Int) k => do
          if (c >>> k) &&& 1 = 1 then
            let old ← pyGet acc3.1 ((j <<< 3) + k)
            pure (← pySet acc3.1 ((j <<< 3) + k) (old + cw), acc3.2)
          else
            let old ← pyGet acc3.2 ((j <<< 3) + k)
            pure (acc3.1, ← pySet acc3.2 ((j <<< 3) + k) (old + cw))) acc2
      else pure acc2) acc) init

/-- `MessageChunk.assemble_chars(bitstrue, bitsfalse)`: one character per
8 bits (`bit_weight > 0` decides each bit) and the per-byte confidence
`sum(abs(bit_weight))`. -/
def assembleChars (bitstrue bitsfalse : List Int) : Str × List Int :=
  let n := bitstrue.length >>> 3
  let res := (List.range n).map (fun i =>
    let w : Nat → Int := fun j =>
      bitstrue.getD ((i <<< 3) + j) 0 - bitsfalse.getD ((i <<< 3) + j) 0
    (byteFromBits (fun j => decide (0 < w j)),
     (List.range 8).foldl (fun acc j => acc + |w j|) 0))
  (res.map (·.1), res.map (·.2))

/-- `_reconcile_character(bitstrue, bitsfalse, pattern)`. -/
def reconcileCharacter (bitstrue bitsfalse : List Int) (pattern : Str) :
    Except PyErr (Int × Nat) := do
  if bitstrue.sum = 0 ∧ 1 < pattern.length then return (0, 0)
  let near ← pattern.mapM (fun t => do
    let d ← (List.range 8).foldlM (fun (acc : Int) j => do
      let bt ← pyGet bitstrue j
      let bf ← pyGet bitsfalse j
      let bw := bt - bf
      if ((t >>> j) &&& 1) ≠ (if 0 < bw then 1 else 0) then pure (acc + |bw|)
      else pure acc) (0 : Int)
    pure (d, t))
  let sortedNear := pySorted
    (fun a b : Int × Nat =>
      if a.1 < b.1 then true else if a.1 = b.1 then decide (a.2 < b.2) else false) near
  let first ← pyGet sortedNear 0
  if sortedNear.length = 1 then return (2, first.2)
  let second ← pyGet sortedNear 1
  if first.1 ≠ second.1 then return (2, first.2)
  return (1, first.2)

/-- `MessageChunk.approximate_chars(chars, confidences, bitstrue, bitsfalse,
byte_pattern_index)`.  The running pattern counter starts at
`byte_pattern_index`, the multipath sentinel is resolved against
`_SAME_CHARS[byte_pattern_index + multipath]` and
`_SAME_CHARS[byte_pattern_index + 1]`, and the function returns the
*original* `byte_pattern_index` unchanged. -/
def approximateChars (chars : Str) (confidences : List Int)
    (bitstrue bitsfalse : List Int) (bpi : Int) :
    Except PyErr (Str × List Int × Int) := do
  let res ← (List.range chars.length).foldlM
    (fun (st : Int × Str × List Int) i => do
      let c := chars.getD i 0
      let byteConfidence ← pyGet confidences i
      let patternE ← pyGetI SAME_CHARS st.1
      let mp ← (match patternE with
        | .cs s => pure ((none : Option Int), s)
        | .rep m => do
          let p1 ← pyGetI SAME_CHARS (bpi + m)
          let p2 ← pyGetI SAME_CHARS (bpi + 1)
          match p1, p2 with
          | .cs a, .cs b => pure (some m, a ++ b)
          | _, _ => throw PyErr.typeError)
      let multipath := mp.1
      let pattern := mp.2
      let bc2c2 ← (if c ∉ pattern then do
        let rc ← reconcileCharacter (pySlice bitstrue ((i : Int) * 8) (((i : Int) + 1) * 8))
          (pySlice bitsfalse ((i : Int) * 8) (((i : Int) + 1) * 8)) pattern
        pure (rc.1 * 8, rc.2)
      else pure (byteConfidence, c))
      let newCounter ← (match multipath with
        | none => pure (st.1 + 1)
        | some m =>
          if m = 0 then pure (st.1 + 1)
          else do
            let p ← pyGetI SAME_CHARS (bpi + 1)
            match p with
            | .cs s => pure (if bc2c2.2 ∈ s then st.1 + 2 else st.1 + m + 1)
            | .rep _ => throw PyErr.typeError)
      pure (newCounter, st.2.1 ++ [bc2c2.2], st.2.2 ++ [min 9 (pyShr bc2c2.1 3)]))
    (bpi, ([] : Str), ([] : List Int))
  return (res.2.1, res.2.2, bpi)

/-- The `while fips_counter > 0` loop of the `MessageChunk` constructor:
repeatedly reconcile at offset 1 against the candidate FIPS list, carrying
the last `matched` flag. -/
def fipsWhileLoop (candidateFips : List Str) :
    Nat → Str → List Int → Bool → Except PyErr (Str × List Int × Bool)
  | 0, ch, cf, m => .ok (ch, cf, m)
  | n + 1, ch, cf, _ => do
    let r ← reconcileWord ch cf 1 (.plain candidateFips)
    fipsWhileLoop candidateFips n r.1 r.2.1 r.2.2

/-- The result of the `MessageChunk` constructor: the chunk's characters and
confidences, and the updated `byte_confidence_index`. -/
structure ChunkResult where
  chars : Str
  confidences : List Int
  index : Int
deriving DecidableEq

/-- The `MessageChunk` constructor (`SAME.py` lines 445-519). -/
def messageChunk (env : AvgEnv) (msgs : List Str) (cons : List (List Int))
    (bci : Int) (transmitter : Option Str) (fipsCounter : Int)
    (validTimes : List (PyQ × Str)) : Except PyErr ChunkResult := do
  let candidateFips := (env.getCounties transmitter).getD []
  let wfoL := match env.getWfo transmitter with | some w => [w] | none => []
  let bits ← sumConfidence msgs cons
  let bitstrue := bits.1
  let bitsfalse := bits.2
  let a0 := assembleChars bitstrue bitsfalse
  let dispatch ← (
    if 0 ≤ bci ∧ bci ≤ 3 then do
      let r ← reconcileWord a0.1 a0.2 1 (.plain ORIGINATOR_CODES)
      pure (r.1, r.2.1, r.2.2, (4 : Int))
    else if 4 ≤ bci ∧ bci ≤ 6 then do
      let r ← reconcileWord a0.1 a0.2 1 (.plain EVENT_CODES)
      pure (r.1, r.2.1, r.2.2, (4 : Int))
    else if 7 ≤ bci ∧ bci ≤ 12 then do
      let r ← fipsWhileLoop candidateFips fipsCounter.toNat a0.1 a0.2 false
      pure (r.1, r.2.1, r.2.2, (7 : Int))
    else if 13 ≤ bci ∧ bci ≤ 17 then do
      let r ← reconcileWord a0.1 a0.2 1 (.weighted VALID_DURATIONS)
      pure (r.1, r.2.1, r.2.2, (4 : Int))
    else if 18 ≤ bci ∧ bci ≤ 24 then do
      let r ← reconcileWord a0.1 a0.2 1 (.weighted validTimes)
      pure (r.1, r.2.1, r.2.2, (8 : Int))
    else if 25 ≤ bci ∧ bci ≤ 29 then do
      let r ← reconcileWord a0.1 a0.2 1 (.plain wfoL)
      pure (r.1, r.2.1, r.2.2, (5 : Int))
    else if 30 ≤ bci ∧ bci ≤ 33 then do
      let r ← reconcileWord a0.1 a0.2 1 (.plain [str "NWS"])
      pure (r.1, r.2.1, r.2.2, (5 : Int))
    else pure (a0.1, a0.2, false, (0 : Int)))
  let chars1 := dispatch.1
  let confs1 := dispatch.2.1
  let matched := dispatch.2.2.1
  let potOffset := dispatch.2.2.2
  if !matched then
    let ap ← approximateChars chars1 confs1 bitstrue bitsfalse bci
    pure ⟨ap.1, ap.2.1, ap.2.2⟩
  else
    pure ⟨chars1, confs1, bci + potOffset⟩

/-! ## average_message (`SAME.py` lines 644-747) -/

/-- A heterogeneous element of `valid_code_list`: the flattening mixes code
strings with the `(weight, time-string)` tuples of `valid_times`; a tuple
never equals a string, so only the string entries can match a code. -/
inductive PyObj where
  | s (v : Str)
  | wpair (w : PyQ) (v : Str)
deriving DecidableEq

/-- `check_if_valid_code(codes, valid_list)`: membership of every code first
(`set(...).issuperset`, short-circuiting the `and`), then `codes[0] ==
codes[1] and codes[1] == codes[2]` with Python's short-circuit and
out-of-range `IndexError` semantics; returns `codes[0]` on success and
`None` otherwise. -/
def checkIfValidCode (codes : List Str) (validList : List PyObj) :
    Except PyErr (Option Str) := do
  if codes.all (fun c => validList.contains (PyObj.s c)) then
    let c0 ← pyGet codes 0
    let c1 ← pyGet codes 1
    if c0 = c1 then
      let c2 ← pyGet codes 2
      if c1 = c2 then return (some c0) else return none
    else return none
  else return none

/-- The five weighted offsets (minutes) for the candidate issue times. -/
def timeOffsets : List (PyQ × Int) :=
  [(⟨1, 2, by norm_num⟩, -4), (⟨7, 10, by norm_num⟩, -3),
   (⟨9, 10, by norm_num⟩, -2), (⟨11, 10, by norm_num⟩, -1), ((1 : PyQ), 0)]

/-- `average_message(headers, transmitter)`.  Headers are `(message,
confidences, when)` triples; confidences are carried as integer lists (the
string form produced by `add_header` converts elementwise to the same
values).  The in-place replacement `i[0] = split_msg; i[1] = split_con` is
modelled by using the split results directly in the main loop (with tuple
headers Python would raise `TypeError` at that assignment instead). -/
def averageMessage (env : AvgEnv) (headers : List (Str × List Int × PyQ))
    (transmitter : Option Str) : Except PyErr (Str × List Int) := do
  let h0 ← pyGet headers 0
  let validTimes := timeOffsets.map
    (fun wo => (wo.1, env.fmtTime (PyQ.add h0.2.2 (PyQ.ofInt (60 * wo.2)))))
  let _candidateFips := (env.getCounties transmitter).getD []
  let wfo := match env.getWfo transmitter with | some w => [w] | none => []
  let validCodeList : List PyObj :=
    ((DURATION_NUMBERS ++ EVENT_CODES ++ ORIGINATOR_CODES).map PyObj.s)
      ++ validTimes.map (fun p => PyObj.wpair p.1 p.2)
      ++ ((EVENT_CODES ++ wfo).map PyObj.s)
  let split ← headers.mapM (fun h => splitMessage h.1 h.2.1)
  let fipsCounter : Int := split.foldl (fun _ s => s.fips) 0
  let parts0 ← pyGet split 0
  let st ← (List.range parts0.parts.length).foldlM
    (fun (st : Str × List Int × Int) i => do
      let codes ← split.mapM (fun s => do
        let p ← pyGet s.parts i
        pure (pySliceFrom p 1))
      let vc ← checkIfValidCode codes validCodeList
      match vc with
      | some (c :: cs) =>
        let hi ← pyGet split i
        let partI ← pyGet hi.parts i
        pure (st.1 ++ partI, st.2.1 ++ List.replicate (c :: cs).length 9,
          st.2.2 + ((c :: cs).length : Int))
      | _ => do
        let msgs ← split.mapM (fun s => pyGet s.parts i)
        let cons ← split.mapM (fun s => pyGet s.confs i)
        let ch ← messageChunk env msgs cons st.2.2 transmitter fipsCounter validTimes
        pure (st.1 ++ ch.chars, st.2.1 ++ ch.confidences.map (fun c => min 9 c),
          ch.index))
    (([] : Str), ([] : List Int), (0 : Int))
  return (unicodify st.1, pySlice st.2.1 0 (st.1.length : Int))

/-! ## SAMEMessage (`SAME.py` lines 754-933)

The object state is a record; each method becomes a function from state (and
the clock value `now` read inside the call) to the new state and the Python
result, with exceptions in `Except`.  `timeout = float("-inf")` is
`Option.none`. -/

/-- The cached `__avg_message` confidence component: a digit string for
messages built from a pre-decoded literal (`'9' * len(headers)`), an integer
list when produced by `average_message`. -/
inductive ConfVal where
  | strC (s : Str)
  | intC (l : List Int)
deriving DecidableEq

structure SMState where
  transmitter : Option Str
  headers : Option (List (Str × List Int × PyQ))
  avg : Option (Str × ConfVal)
  receivedCallback : Bool
  timeout : Option PyQ
  startTime : PyQ
  published : PyQ
deriving DecidableEq

/-- `SAMEMessage.__init__` for a pre-decoded literal string (a `transmitter`
argument starting with `-`): caches the literal with all-`'9'` confidences and
sets `timeout = -inf`.  `startTimeSec` is the value of
`get_start_time_sec()`, a computation through the Python `time`/`calendar`
standard library (external to this repository). -/
def mkFromString (lit : Str) (startTimeSec : PyQ) (rcb : Bool) : SMState :=
  ⟨none, none, some (lit, .strC (List.replicate lit.length 57)), rcb, none,
   startTimeSec, startTimeSec⟩

/-- `SAMEMessage.__init__` with no headers: empty header list,
`timeout = now + 6`. -/
def mkNew (transmitter : Option Str) (now : PyQ) (rcb : Bool) : SMState :=
  ⟨transmitter, some [], none, rcb, some (PyQ.add now (PyQ.ofInt 6)), now, now⟩

/-- `SAMEMessage.__init__` reconstituting legacy headers:
`start_time = headers[0][2]`, `timeout = start_time + 6`. -/
def mkLegacy (transmitter : Option Str) (headers : List (Str × List Int × PyQ))
    (rcb : Bool) : Except PyErr SMState := do
  let h0 ← pyGet headers 0
  let st := h0.2.2
  return ⟨transmitter, some headers, none, rcb, some (PyQ.add st (PyQ.ofInt 6)), st, st⟩

/-- `self.timeout < now` with `timeout = -inf` always true. -/
def timeoutLt : Option PyQ → PyQ → Bool
  | none, _ => true
  | some q, now => decide (q < now)

/-- `self.timeout < time.time() or len(self.headers) >= 3`, with Python's
short-circuit: `len(None)` raises only when the timeout comparison is
false. -/
def completeE (s : SMState) (now : PyQ) : Except PyErr Bool :=
  if timeoutLt s.timeout now then .ok true
  else match s.headers with
    | none => .error .typeError
    | some hs => .ok (decide (3 ≤ hs.length))

/-- Last step of `fully_received`: extend the timeout only when not yet
complete, and return `complete`. -/
def fullyReceivedFin (s2 : SMState) (complete extendTimeout : Bool) (now : PyQ) :
    SMState × Except PyErr Bool :=
  (if !complete && extendTimeout
    then { s2 with timeout := some (PyQ.add now (PyQ.ofInt 6)) } else s2,
   .ok complete)

/-- Body of `fully_received` after the `make_it_so` update: compute
`complete`, consume the one-shot `received_callback` on completion, then
finish. -/
def fullyReceivedAux (s1 : SMState) (extendTimeout : Bool) (now : PyQ) :
    SMState × Except PyErr Bool :=
  match completeE s1 now with
  | .error e => (s1, .error e)
  | .ok complete =>
    fullyReceivedFin
      (if complete && s1.receivedCallback then { s1 with receivedCallback := false } else s1)
      complete extendTimeout now

/-- `SAMEMessage.fully_received(make_it_so, extend_timeout)`: returns the new
state and the result. -/
def fullyReceivedE (s : SMState) (makeItSo extendTimeout : Bool) (now : PyQ) :
    SMState × Except PyErr Bool :=
  fullyReceivedAux (if makeItSo then { s with timeout := none } else s) extendTimeout now

/-- Body of `add_header` after the completeness check: raise on a complete
message, otherwise append and extend the timeout. -/
def addHeaderCore (s1 : SMState) (complete : Bool) (header : Str)
    (confidence : List Int) (now : PyQ) : SMState × Except PyErr Unit :=
  if complete then (s1, .error .valueError)
  else
    match s1.headers with
    | none => (s1, .error .attributeError)
    | some hs =>
      ({ s1 with
          headers := some (hs ++ [(unicodify header, confidence, now)])
          timeout := some (PyQ.add now (PyQ.ofInt 6)) }, .ok ())

/-- `SAMEMessage.add_header(header, confidence)`: raises when already
complete, otherwise appends `(unicodify(header), confidence, when)` and sets
`timeout = when + 6`.  The string join of the confidence list is elementwise
value-preserving for single-digit confidences and is kept as the integer
list. -/
def addHeaderE (s : SMState) (header : Str) (confidence : List Int) (now : PyQ) :
    SMState × Except PyErr Unit :=
  match fullyReceivedE s false false now with
  | (s1, .error e) => (s1, .error e)
  | (s1, .ok complete) => addHeaderCore s1 complete header confidence now

/-- `default_prioritization(event_type)` (`SAME.py` lines 936-953), with the
`logging` level constants inlined (`CRITICAL = 50`, `WARNING = 30`,
`INFO = 20`, `DEBUG = 10`). -/
def defaultPrioritization (eventType : Str) : Except PyErr Int := do
  if eventType = str "EQW" then return 60
  if eventType = str "TOR" then return 55
  if eventType = str "SVR" then return 50
  let c2 ← pyGet eventType 2
  if c2 = 87 then return 50
  if eventType = str "EVI" then return 30
  if c2 = 69 then return 30
  if c2 = 84 then return 10
  return 20

/-- Body of `get_SAME_message` after the completeness check: when complete,
compute and cache the averaged header on first use (the logging call
evaluates `default_prioritization(self.get_event_type())`, whose exceptions
escape after the cache is already set); when incomplete with at least one
header the source calls `average_message(self.headers)` without the required
`transmitter` argument (`TypeError`); with no headers it returns
`("", [])`. -/
def getSAMEMessageCore (env : AvgEnv) (s1 : SMState) (complete : Bool) :
    SMState × Except PyErr (Str × ConfVal) :=
  if complete then
    match s1.avg with
    | some av => (s1, .ok av)
    | none =>
      match s1.headers with
      | none => (s1, .error .typeError)
      | some hs =>
        match averageMessage env hs s1.transmitter with
        | .error e => (s1, .error e)
        | .ok mc =>
          match defaultPrioritization (pySlice mc.1 5 8) with
          | .error e => ({ s1 with avg := some (mc.1, .intC mc.2) }, .error e)
          | .ok _ => ({ s1 with avg := some (mc.1, .intC mc.2) }, .ok (mc.1, .intC mc.2))
  else
    match s1.headers with
    | none => (s1, .error .typeError)
    | some hs =>
      if hs.length > 0 then (s1, .error .typeError)
      else (s1, .ok ([], .intC []))

def getSAMEMessageM (env : AvgEnv) (s : SMState) (now : PyQ) :
    SMState × Except PyErr (Str × ConfVal) :=
  match fullyReceivedE s false false now with
  | (s1, .error e) => (s1, .error e)
  | (s1, .ok complete) => getSAMEMessageCore env s1 complete

/-- `get_originator()`: characters 1-3 of the averaged string. -/
def getOriginatorM (env : AvgEnv) (s : SMState) (now : PyQ) :
    SMState × Except PyErr Str :=
  match getSAMEMessageM env s now with
  | (s1, .error e) => (s1, .error e)
  | (s1, .ok (m, _)) => (s1, .ok (pySlice m 1 4))

/-- `get_event_type()`: characters 5-7. -/
def getEventTypeM (env : AvgEnv) (s : SMState) (now : PyQ) :
    SMState × Except PyErr Str :=
  match getSAMEMessageM env s now with
  | (s1, .error e) => (s1, .error e)
  | (s1, .ok (m, _)) => (s1, .ok (pySlice m 5 8))

/-- `get_counties()`: `m[9:m.find('+')].split('-')`. -/
def getCountiesM (env : AvgEnv) (s : SMState) (now : PyQ) :
    SMState × Except PyErr (List Str) :=
  match getSAMEMessageM env s now with
  | (s1, .error e) => (s1, .error e)
  | (s1, .ok (m, _)) => (s1, .ok (pySplit (pySlice m 9 (pyFind m 43)) 45))

/-- `get_duration_str()`: the 4 characters after `'+'`. -/
def getDurationStrM (env : AvgEnv) (s : SMState) (now : PyQ) :
    SMState × Except PyErr Str :=
  match getSAMEMessageM env s now with
  | (s1, .error e) => (s1, .error e)
  | (s1, .ok (m, _)) =>
    let start := pyFind m 43 + 1
    (s1, .ok (pySlice m start (start + 4)))

/-- `get_start_time_str()`: the 7 characters starting 6 after `'+'`. -/
def getStartTimeStrM (env : AvgEnv) (s : SMState) (now : PyQ) :
    SMState × Except PyErr Str :=
  match getSAMEMessageM env s now with
  | (s1, .error e) => (s1, .error e)
  | (s1, .ok (m, _)) =>
    let start := pyFind m 43 + 6
    (s1, .ok (pySlice m start (start + 7)))

/-- `get_duration_sec()`: `int(d[0:2]) * 60 * 60 + int(d[2:4]) * 60`. -/
def getDurationSecM (env : AvgEnv) (s : SMState) (now : PyQ) :
    SMState × Except PyErr Int :=
  match getDurationStrM env s now with
  | (s1, .error e) => (s1, .error e)
  | (s1, .ok d) =>
    match pyIntStr (pySlice d 0 2) with
    | .error e => (s1, .error e)
    | .ok hh =>
      match pyIntStr (pySlice d 2 4) with
      | .error e => (s1, .error e)
      | .ok mm => (s1, .ok (hh * 60 * 60 + mm * 60))

/-- One FIPS-slot comparison of `applies_to_fips`: the five trailing digits
must agree and the leading "P" digit must be `'0'` on either side or
equal. -/
def fipsMatchAt (msg fips : Str) (i : Int) : Bool :=
  ((List.range 5).all (fun k =>
    let x : Int := -(1 + (k : Int))
    msg.getD (i + x).toNat 0 = fips.getD ((6 + x).toNat) 0))
  && (fips.getD 0 0 = 48 || msg.getD (i - 6).toNat 0 = 48
      || fips.getD 0 0 = msg.getD (i - 6).toNat 0)

/-- `SAMEMessage.applies_to_fips(fips)`: a 5-character query gets `'0'`
prepended; any other length than 6 then raises `ValueError` before the
message is read; otherwise each slot `i in range(15, len(msg) - 20, 7)` is
scanned. -/
def appliesToFipsM (env : AvgEnv) (s : SMState) (fips : Str) (now : PyQ) :
    SMState × Except PyErr Bool :=
  let fips2 := if fips.length = 5 then 48 :: fips else fips
  if fips2.length ≠ 6 then (s, .error .valueError)
  else
    match getSAMEMessageM env s now with
    | (s1, .error e) => (s1, .error e)
    | (s1, .ok (m, _)) =>
      (s1, .ok ((pyRange 15 ((m.length : Int) - 20) 7).any (fipsMatchAt m fips2)))

/-! ## Concrete inputs used by the claim theorems -/

/-- The specification's clean SAME header. -/
def cleanHeader : Str := str "-WXR-TOR-039173-039051-139069+0030-1591829-KCLE/NWS-"

/-- Confidence 9 at every byte of `cleanHeader`. -/
def allNines : List Int := List.replicate 52 9

/-- A concrete environment: `strftime` returning the issue time of
`cleanHeader` and reference-data lookups raising `KeyError` (unknown
transmitter, giving empty candidate sets). -/
def constEnv : AvgEnv := ⟨fun _ => str "1591829", fun _ => none, fun _ => none⟩

/-- C1: contrary to the claim, `average_message` does not return the clean
header with all-9 confidences for n identical clean copies: for n = 1 and
n = 2 `check_if_valid_code` indexes `codes[1]`/`codes[2]` past the end, and
for n = 3 the accumulation step `avgmsg += headers[i][0][i]` treats the chunk
index as a header index and overruns after the third chunk; all three raise
`IndexError`. -/
theorem average_message_identical_copies_raise :
    averageMessage constEnv [(cleanHeader, allNines, 0)] (some (str "KCLE"))
        = .error .indexError ∧
    averageMessage constEnv [(cleanHeader, allNines, 0), (cleanHeader, allNines, 0)]
        (some (str "KCLE")) = .error .indexError ∧
    averageMessage constEnv
        [(cleanHeader, allNines, 0), (cleanHeader, allNines, 0), (cleanHeader, allNines, 0)]
        (some (str "KCLE")) = .error .indexError :=
  ⟨rfl, rfl, rfl⟩

/-- C3: contrary to the claim, a successful match at `start = 1` does not
return the input word with the matched range overwritten: after `word` is
reassigned to the winning candidate, the confidence rewrite loop reads
`word[i]` for `i` up to `start + L - 1` and raises `IndexError`. -/
theorem reconcile_word_match_raises :
    reconcileWord (str "-WXR") [9, 9, 9, 9] 1 (.plain ORIGINATOR_CODES)
      = .error .indexError := by decide

/-- The `SAMEMessage` built from the pre-decoded clean literal. -/
def literalMessage : SMState := mkFromString cleanHeader 0 false

/-- C2: all accessors of the `SAMEMessage` constructed from the clean
pre-decoded literal return the specified field values. -/
theorem same_message_literal_accessors :
    (getOriginatorM constEnv literalMessage 7).2 = .ok (str "WXR") ∧
    (getEventTypeM constEnv literalMessage 7).2 = .ok (str "TOR") ∧
    (getCountiesM constEnv literalMessage 7).2
      = .ok [str "039173", str "039051", str "139069"] ∧
    (getDurationStrM constEnv literalMessage 7).2 = .ok (str "0030") ∧
    (getDurationSecM constEnv literalMessage 7).2 = .ok 1800 ∧
    (getStartTimeStrM constEnv literalMessage 7).2 = .ok (str "1591829") := by
  decide

/-- A `SAMEMessage` created at time 0 that never received a header. -/
def freshMessage : SMState := mkNew (some (str "KCLE")) 0 false

/-- C8: with zero headers, `get_SAME_message()` returns `("", [])` only while
the message is not yet fully received (time 3 < timeout); once the timeout
has elapsed (time 7) it calls `average_message([])`, which indexes
`headers[0]` and raises `IndexError` instead of returning `("", [])`. -/
theorem get_same_message_no_headers :
    getSAMEMessageM constEnv freshMessage 3 = (freshMessage, .ok ([], .intC [])) ∧
    getSAMEMessageM constEnv freshMessage 7 = (freshMessage, .error .indexError) := by
  decide

/-- C7: `applies_to_fips("0" + X)` equals `applies_to_fips(X)` for 5-character
queries, and a query whose length is neither 5 nor 6 raises `ValueError`
with the message state unchanged. -/
theorem applies_to_fips_normalization (env : AvgEnv) (s : SMState) (fips : Str)
    (now : PyQ) :
    (fips.length = 5 →
      appliesToFipsM env s (48 :: fips) now = appliesToFipsM env s fips now) ∧
    (fips.length ≠ 5 → fips.length ≠ 6 →
      appliesToFipsM env s fips now = (s, .error .valueError)) := by
  constructor
  · intro h5
    unfold appliesToFipsM
    simp [h5]
  · intro h5 h6
    unfold appliesToFipsM
    simp [h5, h6]

/-- Witness for C7 at the clean literal message: a 5-digit query agrees with
its 0-prefixed form, and a 7-character query raises `ValueError`. -/
theorem applies_to_fips_normalization_witness :
    (appliesToFipsM constEnv literalMessage (48 :: str "39173") 7
      = appliesToFipsM constEnv literalMessage (str "39173") 7) ∧
    (appliesToFipsM constEnv literalMessage (str "1234567") 7
      = (literalMessage, .error .valueError)) :=
  ⟨(applies_to_fips_normalization constEnv literalMessage (str "39173") 7).1 (by decide),
   (applies_to_fips_normalization constEnv literalMessage (str "1234567") 7).2
     (by decide) (by decide)⟩

/-- Case analysis of `uniByte` on all byte values. -/
theorem uniByte_cases : ∀ c, c < 256 →
    uniByte c &&& 255 = c &&& 255 ∧
    (32 ≤ c → c ≤ 126 → uniByte c = c) ∧
    (c = 0 → uniByte c = 0x2A00) ∧
    (1 ≤ c → c ≤ 31 → 0x2400 ≤ uniByte c ∧ uniByte c ≤ 0x241F) ∧
    (126 < c → 0x1E00 ≤ uniByte c ∧ uniByte c ≤ 0x1EFF) := by decide

/-- C10: for inputs whose code points are at most 255, `unicodify` preserves
the length and the low byte of every character, keeps printable ASCII 32-126
unchanged, and maps NUL to U+2A00, other control characters into the Control
Pictures block U+2400-U+241F, and codes above 126 into the U+1E00-U+1EFF
block. -/
theorem unicodify_spec (s : Str) (h : ∀ c ∈ s, c ≤ 255) :
    (unicodify s).length = s.length ∧
    ∀ i, i < s.length →
      ((unicodify s).getD i 0 &&& 255 = s.getD i 0 &&& 255) ∧
      (32 ≤ s.getD i 0 → s.getD i 0 ≤ 126 → (unicodify s).getD i 0 = s.getD i 0) ∧
      (s.getD i 0 = 0 → (unicodify s).getD i 0 = 0x2A00) ∧
      (1 ≤ s.getD i 0 → s.getD i 0 ≤ 31 →
        0x2400 ≤ (unicodify s).getD i 0 ∧ (unicodify s).getD i 0 ≤ 0x241F) ∧
      (126 < s.getD i 0 →
        0x1E00 ≤ (unicodify s).getD i 0 ∧ (unicodify s).getD i 0 ≤ 0x1EFF) := by
  constructor
  · simp [unicodify]
  · intro i hi
    have hlt : i < (unicodify s).length := by simpa [unicodify] using hi
    have h1 : (unicodify s).getD i 0 = uniByte (s.getD i 0) := by
      rw [List.getD_eq_getElem _ _ hlt, List.getD_eq_getElem _ _ hi]
      simp [unicodify]
    have hmem : s.getD i 0 ∈ s := by
      rw [List.getD_eq_getElem _ _ hi]
      exact List.getElem_mem hi
    have hb : s.getD i 0 < 256 := Nat.lt_succ_of_le (h _ hmem)
    rw [h1]
    exact uniByte_cases _ hb

/-- Witness for C10 on the concrete input `[0, 5, 65, 200]`. -/
theorem unicodify_spec_witness :
    (unicodify [0, 5, 65, 200]).length = ([0, 5, 65, 200] : Str).length ∧
    ∀ i, i < ([0, 5, 65, 200] : Str).length →
      ((unicodify [0, 5, 65, 200]).getD i 0 &&& 255
        = ([0, 5, 65, 200] : Str).getD i 0 &&& 255) ∧
      (32 ≤ ([0, 5, 65, 200] : Str).getD i 0 → ([0, 5, 65, 200] : Str).getD i 0 ≤ 126 →
        (unicodify [0, 5, 65, 200]).getD i 0 = ([0, 5, 65, 200] : Str).getD i 0) ∧
      (([0, 5, 65, 200] : Str).getD i 0 = 0 →
        (unicodify [0, 5, 65, 200]).getD i 0 = 0x2A00) ∧
      (1 ≤ ([0, 5, 65, 200] : Str).getD i 0 → ([0, 5, 65, 200] : Str).getD i 0 ≤ 31 →
        0x2400 ≤ (unicodify [0, 5, 65, 200]).getD i 0 ∧
        (unicodify [0, 5, 65, 200]).getD i 0 ≤ 0x241F) ∧
      (126 < ([0, 5, 65, 200] : Str).getD i 0 →
        0x1E00 ≤ (unicodify [0, 5, 65, 200]).getD i 0 ∧
        (unicodify [0, 5, 65, 200]).getD i 0 ≤ 0x1EFF) :=
  unicodify_spec [0, 5, 65, 200] (by decide)

/-! ## MessageCache expiry tick (`cache.py` lines 124-140)

A cached message is abstracted by its `get_end_time_sec()` value: the cache
tick reads nothing else from a message, and the time parsing behind that
accessor belongs to the message classes, not to the cache. -/

structure CacheMsg where
  endTime : PyQ
deriving DecidableEq

/-- `EventMessageGroup`: the append-only message list. -/
structure EventMessageGroup where
  messages : List CacheMsg
deriving DecidableEq

/-- `EventMessageGroup.get_end_time_sec()`: `self.messages[-1]`. -/
def groupEndTime (g : EventMessageGroup) : Except PyErr PyQ :=
  match g.messages.getLast? with
  | some m => .ok m.endTime
  | none => .error .indexError

/-- The cache's `event_id → EventMessageGroup` map. -/
structure CacheState where
  groups : List (Str × EventMessageGroup)
deriving DecidableEq

/-- Python `min` fold over the remaining end times. -/
def pyMinFold (e : PyQ) (es : List PyQ) : PyQ :=
  es.foldl (fun a b => if b < a then b else a) e

/-- `MessageCache._get_first_expiry()`: minimum `get_end_time_sec()` over the
groups, `float("inf")` (modelled as `none`) for an empty cache. -/
def getFirstExpiry (st : CacheState) : Except PyErr (Option PyQ) := do
  if st.groups.length ≠ 0 then
    let ends ← st.groups.mapM (fun p => groupEndTime p.2)
    match ends with
    | [] => throw PyErr.valueError
    | e :: es => return some (pyMinFold e es)
  else return none

/-- `first_expiry < now`; false for `inf`. -/
def expiryLt : Option PyQ → PyQ → Bool
  | none, _ => false
  | some q, now => decide (q < now)

/-- `min(15 * 60, max(0, first_expiry - now))` passed to
`event.reduce_time_left`. -/
def tickDelay : Option PyQ → PyQ → PyQ
  | none, _ => PyQ.ofInt 900
  | some q, now => PyQ.pymin (PyQ.ofInt 900) (PyQ.pymax (PyQ.ofInt 0) (PyQ.sub q now))

/-- Effectful filter (the dict comprehension re-evaluates
`get_end_time_sec()` per group). -/
def filterME {α : Type} (p : α → Except PyErr Bool) : List α → Except PyErr (List α)
  | [] => .ok []
  | x :: xs => do
    let b ← p x
    let rest ← filterME p xs
    if b then pure (x :: rest) else pure rest

/-- `MessageCache._generate_events(event)`: compute the first expiry, report
the next tick delay, and if the first expiry is in the past drop every group
whose end time is before `now` and fire `update_score(None)` (the returned
Boolean). -/
def generateEvents (st : CacheState) (now : PyQ) :
    Except PyErr (CacheState × Bool × PyQ) := do
  let fe ← getFirstExpiry st
  let delay := tickDelay fe now
  if expiryLt fe now then
    let kept ← filterME (fun p => do
      let e ← groupEndTime p.2
      pure (decide (now ≤ e))) st.groups
    return (⟨kept⟩, true, delay)
  else
    return (st, false, delay)

/-- The end time of a group with at least one message, as a total value. -/
def endVal (p : Str × EventMessageGroup) : PyQ :=
  match p.2.messages.getLast? with
  | some m => m.endTime
  | none => 0

theorem groupEndTime_of_ne (p : Str × EventMessageGroup)
    (h : p.2.messages ≠ []) : groupEndTime p.2 = .ok (endVal p) := by
  unfold groupEndTime endVal
  cases hm : p.2.messages.getLast? with
  | some m => rfl
  | none => exact absurd (List.getLast?_eq_none_iff.mp hm) h

theorem mapM_groupEndTime (l : List (Str × EventMessageGroup))
    (h : ∀ p ∈ l, p.2.messages ≠ []) :
    l.mapM (fun p => groupEndTime p.2) = .ok (l.map endVal) := by
  induction l with
  | nil => rfl
  | cons x xs ih =>
    rw [List.mapM_cons, groupEndTime_of_ne x (h x (List.mem_cons_self x xs)),
      ih (fun p hp => h p (List.mem_cons_of_mem x hp))]
    rfl

theorem PyQ.le_of_lt {a b : PyQ} (h : a < b) : a ≤ b :=
  PyQ.le_def.mpr (Int.le_of_lt (PyQ.lt_def.mp h))

theorem pyMinFold_le_init (e : PyQ) (es : List PyQ) : pyMinFold e es ≤ e := by
  induction es generalizing e with
  | nil => exact PyQ.le_refl e
  | cons b bs ih =>
    show pyMinFold (if b < e then b else e) bs ≤ e
    by_cases hb : b < e
    · rw [if_pos hb]
      exact PyQ.le_trans (ih b) (PyQ.le_of_lt hb)
    · rw [if_neg hb]
      exact ih e

theorem pyMinFold_le_mem (e : PyQ) (es : List PyQ) :
    ∀ x ∈ es, pyMinFold e es ≤ x := by
  induction es generalizing e with
  | nil => intro x hx; exact absurd hx (List.not_mem_nil x)
  | cons b bs ih =>
    intro x hx
    show pyMinFold (if b < e then b else e) bs ≤ x
    rcases List.mem_cons.mp hx with hxb | hxbs
    · subst hxb
      by_cases hb : x < e
      · rw [if_pos hb]; exact pyMinFold_le_init x bs
      · rw [if_neg hb]
        exact PyQ.le_trans (pyMinFold_le_init e bs) (PyQ.le_of_not_lt hb)
    · exact ih _ x hxbs

theorem exceptOkBind {ε α β : Type} (a : α) (f : α → Except ε β) :
    ((Except.ok a : Except ε α) >>= f) = f a := rfl

theorem filterME_groupEndTime (now : PyQ) (l : List (Str × EventMessageGroup))
    (h : ∀ p ∈ l, p.2.messages ≠ []) :
    filterME (fun p => do
      let e ← groupEndTime p.2
      pure (decide (now ≤ e))) l
      = .ok (l.filter (fun p => decide (now ≤ endVal p))) := by
  induction l with
  | nil => rfl
  | cons x xs ih =>
    have hx := groupEndTime_of_ne x (h x (List.mem_cons_self x xs))
    unfold filterME
    rw [List.filter_cons]
    simp only [hx, ih (fun p hp => h p (List.mem_cons_of_mem x hp)), exceptOkBind]
    cases hd : decide (now ≤ endVal x) <;> rfl

/-! ## Traces of SAMEMessage operations (for the monotonicity claim) -/

/-- A method call on a `SAMEMessage`. -/
inductive SMOp where
  | addHeader (header : Str) (confidence : List Int)
  | fullyReceived (makeItSo extendTimeout : Bool)
  | getSAME

/-- The state after one method call at clock value `now` (results and
exceptions are discarded; exceptions leave the state reached at the raise
point). -/
def applyOp (env : AvgEnv) (s : SMState) (op : SMOp) (now : PyQ) : SMState :=
  match op with
  | .addHeader h c => (addHeaderE s h c now).1
  | .fullyReceived m e => (fullyReceivedE s m e now).1
  | .getSAME => (getSAMEMessageM env s now).1

/-- Run a list of timestamped calls. -/
def applyTrace (env : AvgEnv) : SMState → List (PyQ × SMOp) → SMState
  | s, [] => s
  | s, (t, op) :: rest => applyTrace env (applyOp env s op t) rest

/-- The clock is nondecreasing along the trace, starting at `t0` and ending
at `tEnd`. -/
def timesMono : PyQ → List (PyQ × SMOp) → PyQ → Bool
  | t0, [], tEnd => decide (t0 ≤ tEnd)
  | t0, (t, _) :: rest, tEnd => decide (t0 ≤ t) && timesMono t rest tEnd

theorem completeE_congr {s s2 : SMState} (h1 : s2.timeout = s.timeout)
    (h2 : s2.headers = s.headers) (now : PyQ) :
    completeE s2 now = completeE s now := by
  unfold completeE
  rw [h1, h2]

theorem completeE_mono_time {s : SMState} {t t2 : PyQ}
    (h : completeE s t = .ok true) (hle : t ≤ t2) : completeE s t2 = .ok true := by
  unfold completeE at h ⊢
  by_cases h2 : timeoutLt s.timeout t2
  · rw [if_pos h2]
  · rw [if_neg h2]
    have h1 : ¬ timeoutLt s.timeout t = true := by
      intro h1
      apply h2
      cases hto : s.timeout with
      | none => rfl
      | some q =>
        rw [hto] at h1
        exact decide_eq_true (PyQ.lt_of_lt_of_le (of_decide_eq_true h1) hle)
    rw [if_neg h1] at h
    exact h

theorem fullyReceivedAux_complete {s1 : SMState} {t : PyQ} (e : Bool)
    (h : completeE s1 t = .ok true) :
    fullyReceivedAux s1 e t
      = (if s1.receivedCallback then { s1 with receivedCallback := false } else s1,
         .ok true) := by
  unfold fullyReceivedAux
  rw [h]
  rfl

theorem completeE_clear_callback {s1 : SMState} {t : PyQ}
    (h : completeE s1 t = .ok true) :
    completeE (if s1.receivedCallback then { s1 with receivedCallback := false } else s1) t
      = .ok true := by
  cases hrc : s1.receivedCallback
  · simpa using h
  · rw [if_pos rfl]
    exact (completeE_congr rfl rfl t).trans h

theorem fullyReceivedE_complete_char {s : SMState} {t : PyQ} (m e : Bool)
    (h : completeE s t = .ok true) :
    ∃ s2, fullyReceivedE s m e t = (s2, .ok true) ∧ completeE s2 t = .ok true := by
  have hs1 : completeE (if m then { s with timeout := none } else s) t = .ok true := by
    cases m
    · simpa using h
    · rw [if_pos rfl]
      unfold completeE
      rfl
  refine ⟨_, ?_, completeE_clear_callback hs1⟩
  show fullyReceivedAux (if m then { s with timeout := none } else s) e t = _
  exact fullyReceivedAux_complete e hs1

theorem addHeaderCore_complete_state (s1 : SMState) (hd : Str) (cf : List Int)
    (now : PyQ) {t : PyQ} (h : completeE s1 t = .ok true) :
    completeE (addHeaderCore s1 true hd cf now).1 t = .ok true := by
  unfold addHeaderCore
  rw [if_pos rfl]
  exact h

theorem getSAMEMessageCore_complete_state (env : AvgEnv) (s1 : SMState)
    {t : PyQ} (h : completeE s1 t = .ok true) :
    completeE (getSAMEMessageCore env s1 true).1 t = .ok true := by
  unfold getSAMEMessageCore
  rw [if_pos rfl]
  split
  · exact h
  · split
    · exact h
    · split
      · exact h
      · split
        · exact (completeE_congr rfl rfl t).trans h
        · exact (completeE_congr rfl rfl t).trans h

theorem applyOp_preserves_complete (env : AvgEnv) {s : SMState} {t : PyQ}
    (h : completeE s t = .ok true) (op : SMOp) :
    completeE (applyOp env s op t) t = .ok true := by
  obtain ⟨s2, hfr, hc2⟩ := fullyReceivedE_complete_char false false h
  cases op with
  | addHeader hd cf =>
    show completeE (addHeaderE s hd cf t).1 t = .ok true
    unfold addHeaderE
    rw [hfr]
    exact addHeaderCore_complete_state s2 hd cf t hc2
  | fullyReceived m e =>
    obtain ⟨s3, hfr3, hc3⟩ := fullyReceivedE_complete_char m e h
    show completeE (fullyReceivedE s m e t).1 t = .ok true
    rw [hfr3]
    exact hc3
  | getSAME =>
    show completeE (getSAMEMessageM env s t).1 t = .ok true
    unfold getSAMEMessageM
    rw [hfr]
    exact getSAMEMessageCore_complete_state env s2 hc2

/-- C6: `fully_received` is monotone: once a `fully_received()` call at time
`t0` has returned true, it returns true after any further trace of
`add_header`, `fully_received` (with any `make_it_so`/`extend_timeout`
flags) and `get_SAME_message` calls under a nondecreasing clock. -/
theorem fully_received_monotone (env : AvgEnv) (s : SMState) (t0 tEnd : PyQ)
    (tr : List (PyQ × SMOp))
    (h0 : completeE s t0 = .ok true)
    (hm : timesMono t0 tr tEnd = true) :
    (fullyReceivedE (applyTrace env s tr) false false tEnd).2 = .ok true := by
  induction tr generalizing s t0 with
  | nil =>
    have hle := of_decide_eq_true hm
    have hc := completeE_mono_time h0 hle
    obtain ⟨s2, heq, _⟩ := fullyReceivedE_complete_char false false hc
    show (fullyReceivedE s false false tEnd).2 = .ok true
    rw [heq]
  | cons p rest ih =>
    obtain ⟨t, op⟩ := p
    rw [timesMono] at hm
    obtain ⟨h1, h2⟩ := Bool.and_eq_true_iff.mp hm
    have hct : completeE s t = .ok true := completeE_mono_time h0 (of_decide_eq_true h1)
    exact ih (applyOp env s op t) t (applyOp_preserves_complete env hct op) h2

/-- Witness for C6: a message created at time 0 is complete at time 7
(timeout 6 elapsed); after a timeout-extension attempt, an `add_header`
attempt and a `get_SAME_message` call, `fully_received` still returns true
at time 11. -/
theorem fully_received_monotone_witness :
    (fullyReceivedE (applyTrace constEnv freshMessage
        [(8, .fullyReceived false true), (9, .addHeader cleanHeader allNines),
         (10, .getSAME)]) false false 11).2 = .ok true :=
  fully_received_monotone constEnv freshMessage 7 11
    [(8, .fullyReceived false true), (9, .addHeader cleanHeader allNines),
     (10, .getSAME)] (by decide) (by decide)

/-- C9: one `generate_events` tick establishes the invariant that every
remaining group's end time is at least `now`: when the minimum end time over
groups (`inf` for an empty cache) is before `now`, exactly the groups with
end time at least `now` are kept and `update_score(None)` is fired;
otherwise the group map is unchanged and no `update_score` is fired. -/
theorem generate_events_expiry_invariant (st : CacheState) (now : PyQ)
    (hne : ∀ p ∈ st.groups, p.2.messages ≠ []) :
    ∃ st2 fired delay,
      generateEvents st now = .ok (st2, fired, delay) ∧
      (∀ p ∈ st2.groups, ∀ e, groupEndTime p.2 = .ok e → now ≤ e) ∧
      ((∃ fe, getFirstExpiry st = .ok (some fe) ∧ fe < now) →
        fired = true ∧
        ∀ p ∈ st.groups,
          (p ∈ st2.groups ↔ ∀ e, groupEndTime p.2 = .ok e → now ≤ e)) ∧
      (¬ (∃ fe, getFirstExpiry st = .ok (some fe) ∧ fe < now) →
        st2 = st ∧ fired = false) := by
  rcases hg : st.groups with _ | ⟨g, gs⟩
  · have hFE : getFirstExpiry st = .ok none := by
      unfold getFirstExpiry
      rw [hg]
      rfl
    have hGE : generateEvents st now = .ok (st, false, tickDelay none now) := by
      unfold generateEvents
      rw [hFE]
      rfl
    refine ⟨st, false, tickDelay none now, hGE, ?_, ?_, fun _ => ⟨rfl, rfl⟩⟩
    · intro p hp
      rw [hg] at hp
      exact absurd hp (List.not_mem_nil p)
    · rintro ⟨fe, hfe, _⟩
      rw [hFE] at hfe
      exact absurd (Except.ok.inj hfe) (by simp)
  · have hne2 : ∀ p ∈ g :: gs, p.2.messages ≠ [] := by
      rw [hg] at hne
      exact hne
    have hmap : (g :: gs).mapM (fun p => groupEndTime p.2)
        = .ok ((g :: gs).map endVal) := mapM_groupEndTime _ hne2
    have hFE : getFirstExpiry st
        = .ok (some (pyMinFold (endVal g) (gs.map endVal))) := by
      unfold getFirstExpiry
      rw [hg]
      simp only [List.map_cons] at hmap
      rw [if_pos (show (g :: gs).length ≠ 0 by simp), hmap]
      rfl
    have hmin : ∀ p ∈ st.groups, pyMinFold (endVal g) (gs.map endVal) ≤ endVal p := by
      intro p hp
      rw [hg] at hp
      rcases List.mem_cons.mp hp with h1 | h2
      · rw [h1]
        exact pyMinFold_le_init _ _
      · exact pyMinFold_le_mem _ _ _ (List.mem_map_of_mem endVal h2)
    by_cases hlt : pyMinFold (endVal g) (gs.map endVal) < now
    · have hfil := filterME_groupEndTime now (g :: gs) hne2
      have hGE : generateEvents st now
          = .ok (⟨(g :: gs).filter (fun p => decide (now ≤ endVal p))⟩, true,
                 tickDelay (some (pyMinFold (endVal g) (gs.map endVal))) now) := by
        unfold generateEvents
        rw [hFE, exceptOkBind]
        simp only
        rw [show expiryLt (some (pyMinFold (endVal g) (gs.map endVal))) now = true
          from decide_eq_true hlt, if_pos rfl, hg, hfil]
        rfl
      refine ⟨_, _, _, hGE, ?_, ?_, ?_⟩
      · intro p hp e he
        have hp2 := List.mem_filter.mp hp
        have hnem : p.2.messages ≠ [] := hne2 p hp2.1
        rw [groupEndTime_of_ne p hnem] at he
        rw [← Except.ok.inj he]
        exact of_decide_eq_true hp2.2
      · intro _
        refine ⟨rfl, ?_⟩
        intro p hp
        have hpc : p ∈ g :: gs := hg ▸ hp
        have hnem := hne2 p hpc
        constructor
        · intro hmem e he
          have hp2 := List.mem_filter.mp hmem
          rw [groupEndTime_of_ne p hnem] at he
          rw [← Except.ok.inj he]
          exact of_decide_eq_true hp2.2
        · intro hall
          exact List.mem_filter.mpr ⟨hpc,
            decide_eq_true (hall (endVal p) (groupEndTime_of_ne p hnem))⟩
      · intro hno
        exact absurd ⟨_, hFE, hlt⟩ hno
    · have hGE : generateEvents st now
          = .ok (st, false,
                 tickDelay (some (pyMinFold (endVal g) (gs.map endVal))) now) := by
        unfold generateEvents
        rw [hFE, exceptOkBind]
        simp only
        rw [show expiryLt (some (pyMinFold (endVal g) (gs.map endVal))) now = false
          from decide_eq_false hlt]
        rfl
      refine ⟨st, false, _, hGE, ?_, ?_, fun _ => ⟨rfl, rfl⟩⟩
      · intro p hp e he
        have hnem := hne p hp
        rw [groupEndTime_of_ne p hnem] at he
        rw [← Except.ok.inj he]
        exact PyQ.le_trans (PyQ.le_of_not_lt hlt) (hmin p hp)
      · rintro ⟨fe, hfe, hlt2⟩
        rw [hFE] at hfe
        have hfeq : some fe = some (pyMinFold (endVal g) (gs.map endVal)) :=
          (Except.ok.inj hfe).symm
        rw [Option.some.inj hfeq] at hlt2
        exact absurd hlt2 hlt

/-- Witness for C9: a cache with one expired group (end 5) and one active
group (end 20) at time 10. -/
theorem generate_events_expiry_invariant_witness :
    ∃ st2 fired delay,
      generateEvents ⟨[(str "a", ⟨[⟨5⟩]⟩), (str "b", ⟨[⟨20⟩]⟩)]⟩ 10
        = .ok (st2, fired, delay) ∧
      (∀ p ∈ st2.groups, ∀ e, groupEndTime p.2 = .ok e → (10 : PyQ) ≤ e) ∧
      ((∃ fe, getFirstExpiry ⟨[(str "a", ⟨[⟨5⟩]⟩), (str "b", ⟨[⟨20⟩]⟩)]⟩
          = .ok (some fe) ∧ fe < 10) →
        fired = true ∧
        ∀ p ∈ (⟨[(str "a", ⟨[⟨5⟩]⟩), (str "b", ⟨[⟨20⟩]⟩)]⟩ : CacheState).groups,
          (p ∈ st2.groups ↔ ∀ e, groupEndTime p.2 = .ok e → (10 : PyQ) ≤ e)) ∧
      (¬ (∃ fe, getFirstExpiry ⟨[(str "a", ⟨[⟨5⟩]⟩), (str "b", ⟨[⟨20⟩]⟩)]⟩
          = .ok (some fe) ∧ fe < 10) →
        st2 = ⟨[(str "a", ⟨[⟨5⟩]⟩), (str "b", ⟨[⟨20⟩]⟩)]⟩ ∧ fired = false) :=
  generate_events_expiry_invariant ⟨[(str "a", ⟨[⟨5⟩]⟩), (str "b", ⟨[⟨20⟩]⟩)]⟩ 10
    (by decide)

/-- C5 helper: the claim's `d` for bit `k` of a merge. -/
def mergeD (a b : ConfidentCharacter) (k : Fin 8) : Int :=
  (ConfidentCharacter.bitsTrue a k + ConfidentCharacter.bitsTrue b k)
    - (ConfidentCharacter.bitsFalse a k + ConfidentCharacter.bitsFalse b k)

/-- C5: `ConfidentCharacter.__add__` is commutative and associative, the
merged bit `k` is 1 exactly when `d = new_true[k] - new_false[k]` is positive,
and the merged bitwise confidence at `k` is `|d|`. -/
theorem confident_character_add_comm_assoc (a b c : ConfidentCharacter) :
    ConfidentCharacter.add a b = ConfidentCharacter.add b a ∧
    ConfidentCharacter.add (ConfidentCharacter.add a b) c
      = ConfidentCharacter.add a (ConfidentCharacter.add b c) ∧
    (∀ k : Fin 8,
      (ConfidentCharacter.add a b).char.testBit k.val = decide (0 < mergeD a b k) ∧
      (ConfidentCharacter.add a b).bitwise_confidence k = |mergeD a b k|) := by
  have hd : ∀ k : Fin 8, mergeD a b k
      = ConfidentCharacter.net a k + ConfidentCharacter.net b k := by
    intro k
    unfold mergeD ConfidentCharacter.net
    ring
  refine ⟨?_, ?_, ?_⟩
  · rw [ConfidentCharacter.add_eq_ofNet a b, ConfidentCharacter.add_eq_ofNet b a]
    exact congrArg _ (funext fun k => by ring)
  · rw [ConfidentCharacter.add_eq_ofNet a b, ConfidentCharacter.add_eq_ofNet b c,
      ConfidentCharacter.add_eq_ofNet, ConfidentCharacter.add_eq_ofNet]
    simp only [ConfidentCharacter.net_ofNet]
    exact congrArg _ (funext fun k => by ring)
  · intro k
    rw [ConfidentCharacter.add_eq_ofNet a b]
    unfold ConfidentCharacter.ofNet ConfidentCharacter.ofBitwise
    simp only
    rw [testBit_byteFromBits _ k.val k.isLt, dif_pos k.isLt]
    have hk : (⟨k.val, k.isLt⟩ : Fin 8) = k := rfl
    rw [hk, hd k]
    constructor
    · rfl
    · by_cases h : 0 < ConfidentCharacter.net a k + ConfidentCharacter.net b k
      · rw [if_pos h, abs_of_pos h]
      · rw [if_neg h, abs_of_nonpos (by omega)]

/-! ## Truncation specification (`_truncate`, claim C4) -/

/-- In-range `l[i]` succeeds with the `getD` value (for any default). -/
theorem pyGet_eq_of_lt {α : Type} (d : α) {l : List α} {i : Nat} (h : i < l.length) :
    pyGet l i = .ok (l.getD i d) := by
  unfold pyGet
  rw [List.get?_eq_getElem?, List.getElem?_eq_getElem h,
    List.getD_eq_getElem?_getD, List.getElem?_eq_getElem h]
  rfl

/-- In-range `l[i] = v` succeeds. -/
theorem pySet_eq_of_lt {α : Type} {l : List α} {i : Nat} (v : α) (h : i < l.length) :
    pySet l i v = .ok (l.set i v) := by
  unfold pySet
  rw [if_pos h]

/-- `getD` after `set` at the written index. -/
theorem getD_set_self {α : Type} {l : List α} {i : Nat} (v d : α) (h : i < l.length) :
    (l.set i v).getD i d = v := by
  simp [List.getD_eq_getElem?_getD, List.getElem?_set, h]

/-- `getD` after `set` at a different index. -/
theorem getD_set_ne {α : Type} {l : List α} {i j : Nat} (v d : α) (hne : j ≠ i) :
    (l.set i v).getD j d = l.getD j d := by
  simp [List.getD_eq_getElem?_getD, List.getElem?_set, Ne.symm hne]

/-- `getD` inside the taken prefix. -/
theorem getD_take {α : Type} (l : List α) {k j : Nat} (d : α) (hj : j < k) :
    (l.take k).getD j d = l.getD j d := by
  simp [List.getD_eq_getElem?_getD, List.getElem?_take, hj]

/-- Taking `min k len` is the same as taking `k`. -/
theorem take_min_length {α : Type} (l : List α) (k : Nat) :
    l.take (min k l.length) = l.take k := by
  rcases le_total k l.length with h | h
  · rw [min_eq_left h]
  · rw [min_eq_right h, List.take_length, List.take_of_length_le h]

/-- A slice from 0 with a non-negative upper bound is a `take`. -/
theorem pySlice_zero {α : Type} (l : List α) (b : Int) (hb : 0 ≤ b) :
    pySlice l 0 b = l.take b.toNat := by
  unfold pySlice pyNormIdx
  rw [if_neg (by omega : ¬ (0 : Int) < 0), if_neg (by omega : ¬ b < 0)]
  simp only [Int.toNat_zero, Nat.zero_min, List.drop_zero, Nat.sub_zero]
  · exact take_min_length l b.toNat

/-- A slice never exceeds the length of the underlying list. -/
theorem pySlice_length_le {α : Type} (l : List α) (a b : Int) :
    (pySlice l a b).length ≤ l.length := by
  unfold pySlice
  simp only [List.length_take, List.length_drop]
  omega

/-- The `_word_distance` loop never raises when the word is no longer than
the confidence vector: the only read of `confidence[i]` happens at `i <
len(word)`. -/
theorem wordDistanceAux_ok (word : Str) (confidence : List Int) (wc : Option Nat)
    (hlen : word.length ≤ confidence.length) (cs : List Nat) :
    ∀ (i : Nat) (d : Int), ∃ v, wordDistanceAux word confidence wc i cs d = .ok v := by
  induction cs with
  | nil => exact fun i d => ⟨d, rfl⟩
  | cons c rest ih =>
    intro i d
    unfold wordDistanceAux
    by_cases hi : i < word.length
    · rw [if_pos hi]
      by_cases hm : some c ≠ wc ∧ word.getD i 0 ≠ c
      · rw [if_pos hm]
        have hic : i < confidence.length := lt_of_lt_of_le hi hlen
        rw [List.get?_eq_getElem?, List.getElem?_eq_getElem hic]
        exact ih (i + 1) (d + (1 + confidence[i]))
      · rw [if_neg hm]
        exact ih (i + 1) d
    · rw [if_neg hi]
      exact ⟨_, rfl⟩

/-- A candidate score of `_truncate` never raises when the confidence vector
covers the message. -/
theorem truncDist_ok (msg : Str) (conf : List Int) (hlen : msg.length ≤ conf.length)
    (l : Int) : ∃ d, truncDist msg conf l = .ok d := by
  unfold truncDist wordDistance
  exact wordDistanceAux_ok _ _ _
    (le_trans (pySlice_length_le msg (l - 23) l) hlen) END_SEQUENCE 0 0

/-- Scoring all candidate lengths succeeds and characterizes the pairs. -/
theorem mapM_truncCand_ok (msg : Str) (conf : List Int)
    (hlen : msg.length ≤ conf.length) (ls : List Int) :
    ∃ cs : List (Int × Int),
      ls.mapM (truncCand msg conf) = .ok cs ∧
      (∀ p ∈ cs, p.2 ∈ ls ∧ truncDist msg conf p.2 = .ok p.1) ∧
      (∀ l ∈ ls, ∃ d, truncDist msg conf l = .ok d ∧ (d, l) ∈ cs) := by
  induction ls with
  | nil =>
    refine ⟨[], rfl, ?_, ?_⟩
    · intro p hp
      exact absurd hp (List.not_mem_nil p)
    · intro l hl
      exact absurd hl (List.not_mem_nil l)
  | cons l rest ih =>
    obtain ⟨cs, hcs, hfwd, hbwd⟩ := ih
    obtain ⟨d, hd⟩ := truncDist_ok msg conf hlen l
    have hcand : truncCand msg conf l = .ok (d, l) := by
      unfold truncCand
      rw [hd]
    refine ⟨(d, l) :: cs, ?_, ?_, ?_⟩
    · rw [List.mapM_cons, hcand, hcs]
      rfl
    · intro p hp
      rcases List.mem_cons.mp hp with h | h
      · subst h
        exact ⟨List.mem_cons_self l rest, hd⟩
      · obtain ⟨h1, h2⟩ := hfwd p h
        exact ⟨List.mem_cons_of_mem l h1, h2⟩
    · intro l2 hl2
      rcases List.mem_cons.mp hl2 with h | h
      · subst h
        exact ⟨d, hd, List.mem_cons_self _ cs⟩
      · obtain ⟨d2, hd2, hmem⟩ := hbwd l2 h
        exact ⟨d2, hd2, List.mem_cons_of_mem _ hmem⟩

/-- The fold inside `min` over `(int, int)` pairs returns an element that is
either the seed or from the list, with minimal first component. -/
theorem pyMinIntPairs_foldl (xs : List (Int × Int)) :
    ∀ a : Int × Int,
      ((xs.foldl (fun a b => if b.1 < a.1 ∨ (b.1 = a.1 ∧ b.2 < a.2) then b else a) a) = a ∨
        (xs.foldl (fun a b => if b.1 < a.1 ∨ (b.1 = a.1 ∧ b.2 < a.2) then b else a) a) ∈ xs) ∧
      (xs.foldl (fun a b => if b.1 < a.1 ∨ (b.1 = a.1 ∧ b.2 < a.2) then b else a) a).1 ≤ a.1 ∧
      ∀ p ∈ xs,
        (xs.foldl (fun a b => if b.1 < a.1 ∨ (b.1 = a.1 ∧ b.2 < a.2) then b else a) a).1 ≤ p.1 := by
  induction xs with
  | nil =>
    intro a
    refine ⟨Or.inl rfl, le_refl _, ?_⟩
    intro p hp
    exact absurd hp (List.not_mem_nil p)
  | cons b bs ih =>
    intro a
    simp only [List.foldl_cons]
    obtain ⟨hmem, hle, hall⟩ := ih (if b.1 < a.1 ∨ (b.1 = a.1 ∧ b.2 < a.2) then b else a)
    have hstep : (if b.1 < a.1 ∨ (b.1 = a.1 ∧ b.2 < a.2) then b else a).1 ≤ a.1 ∧
        (if b.1 < a.1 ∨ (b.1 = a.1 ∧ b.2 < a.2) then b else a).1 ≤ b.1 := by
      by_cases hc : b.1 < a.1 ∨ (b.1 = a.1 ∧ b.2 < a.2)
      · rw [if_pos hc]
        rcases hc with h | ⟨h, _⟩
        · exact ⟨le_of_lt h, le_refl _⟩
        · exact ⟨le_of_eq h, le_refl _⟩
      · rw [if_neg hc]
        push_neg at hc
        exact ⟨le_refl _, hc.1⟩
    refine ⟨?_, le_trans hle hstep.1, ?_⟩
    · rcases hmem with h | h
      · by_cases hc : b.1 < a.1 ∨ (b.1 = a.1 ∧ b.2 < a.2)
        · right
          rw [h, if_pos hc]
          exact List.mem_cons_self b bs
        · left
          rw [h, if_neg hc]
      · right
        exact List.mem_cons_of_mem b h
    · intro p hp
      rcases List.mem_cons.mp hp with h | h
      · subst h
        exact le_trans hle hstep.2
      · exact hall p h

/-- Python `min` over a non-empty list of `(int, int)` pairs succeeds, returns
a member, and the member's first component is minimal. -/
theorem pyMinIntPairs_spec (x : Int × Int) (xs : List (Int × Int)) :
    ∃ w, pyMinIntPairs (x :: xs) = .ok w ∧ w ∈ x :: xs ∧ ∀ p ∈ x :: xs, w.1 ≤ p.1 := by
  obtain ⟨hmem, hle, hall⟩ := pyMinIntPairs_foldl xs x
  refine ⟨_, rfl, ?_, ?_⟩
  · rcases hmem with h | h
    · rw [h]
      exact List.mem_cons_self x xs
    · exact List.mem_cons_of_mem x h
  · intro p hp
    rcases List.mem_cons.mp hp with h | h
    · subst h
      exact hle
    · exact hall p h

/-- Membership in the candidate lengths of `_truncate`. -/
theorem mem_truncLens {n : Nat} (h38 : 38 ≤ n) {L : Int} :
    L ∈ truncLens n ↔ ∃ k : Nat, L = 38 + 7 * k ∧ L ≤ (n : Int) := by
  unfold truncLens pyRange
  rw [if_pos (by omega : (38 : Int) < (n : Int) + 1)]
  rw [List.mem_map]
  constructor
  · rintro ⟨k, hk, hkL⟩
    rw [List.mem_range] at hk
    refine ⟨k, ?_, ?_⟩
    · omega
    · omega
  · rintro ⟨k, hL, hle⟩
    refine ⟨k, ?_, ?_⟩
    · rw [List.mem_range]
      omega
    · omega

/-- Length of the repeated FIPS separator block. -/
theorem length_flatten_replicate (n : Nat) (s : Str) :
    (List.replicate n s).flatten.length = n * s.length := by
  induction n with
  | zero => simp
  | succ m ih =>
    simp only [List.replicate_succ, List.flatten_cons, List.length_append, ih]
    ring

/-- On a candidate length `38 + 7k` the frame built by `_truncate` has exactly
that length (`fips_count = k + 1`). -/
theorem truncFrame_length (k L : Nat) (hL : L = 38 + 7 * k) :
    (truncFrame L).length = L := by
  subst hL
  have h7 : ((38 + 7 * k : Nat) : Int) - (END_SEQUENCE.length : Int) - 8
      = 7 * ((k : Int) + 1) := by
    have h23 : END_SEQUENCE.length = 23 := rfl
    rw [h23]
    push_cast
    ring
  have hfc : fipsCountOf (38 + 7 * k) = (k : Int) + 1 := by
    unfold fipsCountOf
    rw [h7]
    show PyQ.trunc (PyQ.div (PyQ.ofInt (7 * ((k : Int) + 1))) (PyQ.ofInt 7)) = (k : Int) + 1
    unfold PyQ.div PyQ.ofInt PyQ.trunc
    norm_num
  unfold truncFrame
  rw [hfc]
  simp only [List.length_append, length_flatten_replicate]
  have h8 : (str "-___-___").length = 8 := rfl
  have hsep : (str "-______").length = 7 := rfl
  have h23 : END_SEQUENCE.length = 23 := rfl
  rw [h8, hsep, h23]
  omega

/-- The frame-laying loop of `_truncate` succeeds when every index is in
range, preserves both lengths, and afterwards every visited position holds
the frame character wherever the frame is not the `'_'` wildcard. -/
theorem truncFrameLoop_spec (frame : Str) (endConf : Int) :
    ∀ (idxs : List Nat) (msg : Str) (conf : List Int),
      (∀ i ∈ idxs, i < frame.length ∧ i < msg.length ∧ i < conf.length) →
      ∃ m2 c2, truncFrameLoop frame endConf idxs msg conf = .ok (m2, c2) ∧
        m2.length = msg.length ∧ c2.length = conf.length ∧
        ∀ j : Nat, m2.getD j 0 =
          if j ∈ idxs ∧ frame.getD j 0 ≠ 95 then frame.getD j 0 else msg.getD j 0 := by
  intro idxs
  induction idxs with
  | nil =>
    intro msg conf _
    refine ⟨msg, conf, rfl, rfl, rfl, ?_⟩
    intro j
    rw [if_neg (fun h => absurd h.1 (List.not_mem_nil j))]
  | cons i rest ih =>
    intro msg conf hb
    obtain ⟨hfr, hmr, hcr⟩ := hb i (List.mem_cons_self i rest)
    have hbrest : ∀ j ∈ rest, j < frame.length ∧ j < msg.length ∧ j < conf.length :=
      fun j hj => hb j (List.mem_cons_of_mem i hj)
    unfold truncFrameLoop
    rw [pyGet_eq_of_lt 0 hfr, exceptOkBind]
    by_cases hfi : frame.getD i 0 ≠ 95
    · rw [if_pos hfi, pyGet_eq_of_lt 0 hmr, exceptOkBind]
      by_cases hmi : msg.getD i 0 ≠ frame.getD i 0
      · rw [if_pos hmi, pySet_eq_of_lt _ hmr, exceptOkBind, pySet_eq_of_lt _ hcr,
          exceptOkBind]
        obtain ⟨m2, c2, hrec, hl1, hl2, hch⟩ :=
          ih (msg.set i (frame.getD i 0)) (conf.set i endConf)
            (fun j hj => by
              obtain ⟨h1, h2, h3⟩ := hbrest j hj
              simp only [List.length_set]
              exact ⟨h1, h2, h3⟩)
        refine ⟨m2, c2, hrec, ?_, ?_, ?_⟩
        · rw [hl1, List.length_set]
        · rw [hl2, List.length_set]
        · intro j
          rw [hch j]
          by_cases hji : j = i
          · subst hji
            have hmc : j ∈ j :: rest ∧ frame.getD j 0 ≠ 95 :=
              ⟨List.mem_cons_self j rest, hfi⟩
            rw [if_pos hmc]
            by_cases hjr : j ∈ rest ∧ frame.getD j 0 ≠ 95
            · rw [if_pos hjr]
            · rw [if_neg hjr]
              exact getD_set_self _ _ hmr
          · have hset : (msg.set i (frame.getD i 0)).getD j 0 = msg.getD j 0 :=
              getD_set_ne _ _ hji
            by_cases hjr : j ∈ rest ∧ frame.getD j 0 ≠ 95
            · have hmc : j ∈ i :: rest ∧ frame.getD j 0 ≠ 95 :=
                ⟨List.mem_cons_of_mem i hjr.1, hjr.2⟩
              rw [if_pos hjr, if_pos hmc]
            · have hmc : ¬ (j ∈ i :: rest ∧ frame.getD j 0 ≠ 95) :=
                fun h => hjr ⟨(List.mem_cons.mp h.1).resolve_left hji, h.2⟩
              rw [if_neg hjr, if_neg hmc, hset]
      · rw [if_neg hmi, pyGet_eq_of_lt 0 hcr, exceptOkBind, pySet_eq_of_lt _ hcr,
          exceptOkBind]
        obtain ⟨m2, c2, hrec, hl1, hl2, hch⟩ :=
          ih msg (conf.set i (max endConf (conf.getD i 0)))
            (fun j hj => by
              obtain ⟨h1, h2, h3⟩ := hbrest j hj
              simp only [List.length_set]
              exact ⟨h1, h2, h3⟩)
        refine ⟨m2, c2, hrec, hl1, ?_, ?_⟩
        · rw [hl2, List.length_set]
        · intro j
          rw [hch j]
          by_cases hji : j = i
          · subst hji
            have hmc : j ∈ j :: rest ∧ frame.getD j 0 ≠ 95 :=
              ⟨List.mem_cons_self j rest, hfi⟩
            rw [if_pos hmc]
            by_cases hjr : j ∈ rest ∧ frame.getD j 0 ≠ 95
            · rw [if_pos hjr]
            · rw [if_neg hjr]
              exact not_not.mp hmi
          · by_cases hjr : j ∈ rest ∧ frame.getD j 0 ≠ 95
            · have hmc : j ∈ i :: rest ∧ frame.getD j 0 ≠ 95 :=
                ⟨List.mem_cons_of_mem i hjr.1, hjr.2⟩
              rw [if_pos hjr, if_pos hmc]
            · have hmc : ¬ (j ∈ i :: rest ∧ frame.getD j 0 ≠ 95) :=
                fun h => hjr ⟨(List.mem_cons.mp h.1).resolve_left hji, h.2⟩
              rw [if_neg hjr, if_neg hmc]
    · rw [if_neg hfi]
      obtain ⟨m2, c2, hrec, hl1, hl2, hch⟩ := ih msg conf hbrest
      refine ⟨m2, c2, hrec, hl1, hl2, ?_⟩
      intro j
      rw [hch j]
      by_cases hji : j = i
      · subst hji
        have h1 : ¬ (j ∈ rest ∧ frame.getD j 0 ≠ 95) := fun h => hfi h.2
        have h2 : ¬ (j ∈ j :: rest ∧ frame.getD j 0 ≠ 95) := fun h => hfi h.2
        rw [if_neg h1, if_neg h2]
      · by_cases hjr : j ∈ rest ∧ frame.getD j 0 ≠ 95
        · have hmc : j ∈ i :: rest ∧ frame.getD j 0 ≠ 95 :=
            ⟨List.mem_cons_of_mem i hjr.1, hjr.2⟩
          rw [if_pos hjr, if_pos hmc]
        · have hmc : ¬ (j ∈ i :: rest ∧ frame.getD j 0 ≠ 95) :=
            fun h => hjr ⟨(List.mem_cons.mp h.1).resolve_left hji, h.2⟩
          rw [if_neg hjr, if_neg hmc]

/-- C4: for a merged message of length at least 38 (with a confidence vector
covering it), `_truncate` returns a prefix whose length `L` lies in
`range(38, len + 1, 7)` and minimizes the wildcard word distance of
`avgmsg[L - 23:L]` against `_END_SEQUENCE`, with the frame
`'-___-___' + '-______' * fips_count + _END_SEQUENCE` (via `fips_count =
(L - len(_END_SEQUENCE) - 8) / 7` inside `truncFrame`) written over the
non-wildcard positions of the result; shorter messages come back
unchanged. -/
theorem truncate_spec (msg : Str) (conf : List Int) (hlen : conf.length = msg.length) :
    (msg.length < 38 → truncate msg conf = .ok (msg, conf)) ∧
    (38 ≤ msg.length →
      ∃ (m2 : Str) (c2 : List Int) (L : Int),
        truncate msg conf = .ok (m2, c2) ∧
        L ∈ truncLens msg.length ∧
        (m2.length : Int) = L ∧ (c2.length : Int) = L ∧
        (∃ d, truncDist msg conf L = .ok d ∧
          ∀ L2 ∈ truncLens msg.length, ∀ d2, truncDist msg conf L2 = .ok d2 → d ≤ d2) ∧
        (∀ j : Nat, j < m2.length →
          m2.getD j 0 = if (truncFrame m2.length).getD j 0 ≠ 95
            then (truncFrame m2.length).getD j 0 else msg.getD j 0)) := by
  constructor
  · intro h
    unfold truncate
    rw [if_pos h]
  · intro h38
    have hlt : ¬ msg.length < 38 := by omega
    have hml : msg.length ≤ conf.length := le_of_eq hlen.symm
    obtain ⟨cs, hmapM, hfwd, hbwd⟩ := mapM_truncCand_ok msg conf hml (truncLens msg.length)
    have h38mem : (38 : Int) ∈ truncLens msg.length :=
      (mem_truncLens h38).mpr ⟨0, by norm_num, by exact_mod_cast h38⟩
    obtain ⟨d0, _, hd0mem⟩ := hbwd 38 h38mem
    cases cs with
    | nil => exact absurd hd0mem (List.not_mem_nil _)
    | cons c0 crest =>
      obtain ⟨w, hmin, hwmem, hwle⟩ := pyMinIntPairs_spec c0 crest
      obtain ⟨hwlens, hwdist⟩ := hfwd w hwmem
      obtain ⟨k, hk, hkle⟩ := (mem_truncLens h38).mp hwlens
      have hw0 : (0 : Int) ≤ w.2 := by omega
      have hwn : w.2.toNat ≤ msg.length := by omega
      have hm1 : pySlice msg 0 w.2 = msg.take w.2.toNat := pySlice_zero msg w.2 hw0
      have hc1 : pySlice conf 0 w.2 = conf.take w.2.toNat := pySlice_zero conf w.2 hw0
      have hm1len : (pySlice msg 0 w.2).length = w.2.toNat := by
        rw [hm1, List.length_take]
        omega
      have hc1len : (pySlice conf 0 w.2).length = w.2.toNat := by
        rw [hc1, List.length_take]
        omega
      have hkN : w.2.toNat = 38 + 7 * k := by omega
      have hframe : (truncFrame w.2.toNat).length = w.2.toNat := truncFrame_length k _ hkN
      obtain ⟨m2, c2, hloop, hm2len, hc2len, hm2chars⟩ :=
        truncFrameLoop_spec (truncFrame (pySlice msg 0 w.2).length) (truncEndConf conf w)
          (List.range (pySlice msg 0 w.2).length) (pySlice msg 0 w.2) (pySlice conf 0 w.2)
          (by
            intro i hi
            rw [List.mem_range, hm1len] at hi
            rw [hm1len, hc1len, hframe]
            exact ⟨hi, hi, hi⟩)
      have hfrok : ¬ (truncFrame (pySlice msg 0 w.2).length).length
          ≠ (pySlice msg 0 w.2).length := by
        rw [hm1len, hframe]
        exact fun h => h rfl
      have htr : truncateFin msg conf w = .ok (m2, c2) := by
        unfold truncateFin
        rw [if_neg hfrok]
        exact hloop
      refine ⟨m2, c2, w.2, ?_, hwlens, ?_, ?_, ⟨w.1, hwdist, ?_⟩, ?_⟩
      · unfold truncate
        rw [if_neg hlt, hmapM]
        show (match pyMinIntPairs (c0 :: crest) with
          | Except.error e => (Except.error e : Except PyErr (Str × List Int))
          | Except.ok winner => truncateFin msg conf winner) = Except.ok (m2, c2)
        rw [hmin]
        exact htr
      · rw [hm2len, hm1len]
        omega
      · rw [hc2len, hc1len]
        omega
      · intro L2 hL2 d2 hd2
        obtain ⟨d2x, hd2x, hmem2⟩ := hbwd L2 hL2
        have hd2e : d2 = d2x := by
          rw [hd2] at hd2x
          exact Except.ok.inj hd2x
        rw [hd2e]
        exact hwle (d2x, L2) hmem2
      · intro j hj
        rw [hm2len, hm1len] at hj
        have hjmem : j ∈ List.range (pySlice msg 0 w.2).length :=
          List.mem_range.mpr (by rw [hm1len]; exact hj)
        have hslice : (pySlice msg 0 w.2).getD j 0 = msg.getD j 0 := by
          rw [hm1]
          exact getD_take msg 0 hj
        rw [hm2chars j, hm2len]
        by_cases hfw : (truncFrame (pySlice msg 0 w.2).length).getD j 0 ≠ 95
        · rw [if_pos ⟨hjmem, hfw⟩, if_pos hfw]
        · rw [if_neg (fun h => hfw h.2), if_neg hfw, hslice]

/-- Concrete instantiation of the truncation specification on the clean
52-byte header with all-9 confidences. -/
theorem truncate_spec_witness :
    allNines.length = cleanHeader.length ∧
    ((cleanHeader.length < 38 → truncate cleanHeader allNines = .ok (cleanHeader, allNines)) ∧
    (38 ≤ cleanHeader.length →
      ∃ (m2 : Str) (c2 : List Int) (L : Int),
        truncate cleanHeader allNines = .ok (m2, c2) ∧
        L ∈ truncLens cleanHeader.length ∧
        (m2.length : Int) = L ∧ (c2.length : Int) = L ∧
        (∃ d, truncDist cleanHeader allNines L = .ok d ∧
          ∀ L2 ∈ truncLens cleanHeader.length, ∀ d2,
            truncDist cleanHeader allNines L2 = .ok d2 → d ≤ d2) ∧
        (∀ j : Nat, j < m2.length →
          m2.getD j 0 = if (truncFrame m2.length).getD j 0 ≠ 95
            then (truncFrame m2.length).getD j 0 else cleanHeader.getD j 0))) :=
  ⟨by decide, truncate_spec cleanHeader allNines (by decide)⟩

end RPiNWR
